import Mathlib

set_option autoImplicit false

/-!
# Reach study: record database and scoring plugins

A shallow embedding of

* `reach_core/src/core/reach_database.cpp` (`ReachDatabase`, `toReachDatabase`),
* `reach_core/include/reach_core/study_parameters.h` (`StudyResults`),
* `moveit_reach_plugins/src/evaluation/joint_penalty_moveit.cpp`,
* `moveit_reach_plugins/src/evaluation/distance_penalty_moveit.cpp`.

Conventions of the embedding.

* `float` and `double` values are the numbers of IEEE 754 binary32 and binary64,
  kept as exact rationals, together with `±inf` and `NaN` (`FloatVal`).  Every
  arithmetic operation of `calculateResults` rounds its exact result to the nearest
  number of its format, ties to even, and overflows to an infinity
  (`FloatFormat.round`).  A record's `score` is a finite `double`.
* The scoring plugins are stated over an ordered field or the reals, without rounding.
* `unsigned int` counters are naturals reduced modulo `2 ^ 32`.
* `std::unordered_map<std::string, ReachRecord>` is an association list; its order
  stands for the (unspecified) iteration order of the container.
* The mutex is not modelled: every operation is taken atomically.
-/

namespace Reach

/-! ## Numbers stored in `StudyResults` -/

/-- An IEEE floating point value: a finite number, an infinity with its sign (`true`
is negative), or not-a-number.  The two signed zeros are not told apart; the zero
divisors met in `calculateResults` come from unsigned counters and are positive. -/
inductive FloatVal where
  | finite (q : ℚ)
  | inf (negative : Bool)
  | nan
  deriving DecidableEq, Repr

/-- Rounding of a rational to the nearest integer, ties to the even one. -/
def roundHalfEven (m : ℚ) : ℤ :=
  if m - (⌊m⌋ : ℚ) < 1 / 2 then ⌊m⌋
  else if 1 / 2 < m - (⌊m⌋ : ℚ) then ⌊m⌋ + 1
  else if ⌊m⌋ % 2 = 0 then ⌊m⌋ else ⌊m⌋ + 1

/-- A binary floating point format: the number `mant` of stored fraction bits (the
precision is `mant + 1`) and the least and greatest exponent of a normal number. -/
structure FloatFormat where
  mant : ℕ
  emin : ℤ
  emax : ℤ

/-- The format of `float`. -/
def binary32 : FloatFormat := { mant := 23, emin := -126, emax := 127 }

/-- The format of `double`. -/
def binary64 : FloatFormat := { mant := 52, emin := -1022, emax := 1023 }

namespace FloatFormat

/-- The spacing of the numbers of the format around the positive number `a`: the unit
in the last place of the binade of `a`, or of the subnormal numbers below `2 ^ emin`. -/
def ulp (F : FloatFormat) (a : ℚ) : ℚ :=
  (2 : ℚ) ^ (max (Int.log 2 a) F.emin - (F.mant : ℤ))

/-- Rounding of a positive number to the nearest multiple of its `ulp`, ties to even,
with no bound on the exponent. -/
def roundAbs (F : FloatFormat) (a : ℚ) : ℚ :=
  (roundHalfEven (a / F.ulp a) : ℚ) * F.ulp a

/-- Rounding to nearest, ties to even, of an exact result: an infinity when the rounded
magnitude reaches `2 ^ (emax + 1)`. -/
def round (F : FloatFormat) (q : ℚ) : FloatVal :=
  if q = 0 then FloatVal.finite 0
  else if (2 : ℚ) ^ (F.emax + 1) ≤ F.roundAbs |q| then FloatVal.inf (decide (q < 0))
  else FloatVal.finite (if q < 0 then -F.roundAbs |q| else F.roundAbs |q|)

end FloatFormat

namespace FloatVal

/-- Conversion `static_cast<float>(n)` of an unsigned counter. -/
def ofNat (n : Nat) : FloatVal := binary32.round (n : ℚ)

/-- Conversion of a value to the format `F` (`double` to `float` narrowing). -/
def convert (F : FloatFormat) : FloatVal → FloatVal
  | finite q => F.round q
  | inf s => inf s
  | nan => nan

/-- IEEE sum `a + b` in the format `F`. -/
def add (F : FloatFormat) : FloatVal → FloatVal → FloatVal
  | nan, _ => nan
  | _, nan => nan
  | finite a, finite b => F.round (a + b)
  | finite _, inf s => inf s
  | inf s, finite _ => inf s
  | inf s, inf t => if s = t then inf s else nan

/-- IEEE product `a * b` in the format `F`. -/
def mul (F : FloatFormat) : FloatVal → FloatVal → FloatVal
  | nan, _ => nan
  | _, nan => nan
  | finite a, finite b => F.round (a * b)
  | finite a, inf s => if a = 0 then nan else inf (xor s (decide (a < 0)))
  | inf s, finite b => if b = 0 then nan else inf (xor s (decide (b < 0)))
  | inf s, inf t => inf (xor s t)

/-- IEEE quotient `a / b` in the format `F`: `0 / 0` is `NaN`, a non-zero number over
zero is an infinity, a number over an infinity is zero. -/
def div (F : FloatFormat) : FloatVal → FloatVal → FloatVal
  | nan, _ => nan
  | _, nan => nan
  | finite a, finite b =>
      if b = 0 then (if a = 0 then nan else inf (decide (a < 0))) else F.round (a / b)
  | finite _, inf _ => finite 0
  | inf s, finite b => inf (xor s (decide (b < 0)))
  | inf _, inf _ => nan

end FloatVal

/-! ## Messages -/

/-- Modelled from the spec: `std_msgs/Header` of a joint state (time stamp and frame),
a message type declared outside the sources at hand. -/
structure Header where
  sec : Int
  nanosec : Nat
  frame_id : String
  deriving DecidableEq, Repr

/-- Modelled from the spec: `geometry_msgs::msg::Pose`, the target pose of a record
(position and orientation quaternion). -/
structure Pose where
  px : ℚ
  py : ℚ
  pz : ℚ
  qx : ℚ
  qy : ℚ
  qz : ℚ
  qw : ℚ
  deriving DecidableEq, Repr

/-- Modelled from the spec: `sensor_msgs::msg::JointState`, a joint configuration
(parallel arrays of joint names and values). -/
structure JointState where
  header : Header
  name : List String
  position : List ℚ
  velocity : List ℚ
  effort : List ℚ
  deriving DecidableEq, Repr

/-- Modelled from the spec: `reach_msgs::msg::ReachRecord`, with the seven fields
that `makeRecord` fills in. -/
structure ReachRecord where
  id : String
  goal : Pose
  planning_group : String
  reached : Bool
  seed_state : JointState
  goal_state : JointState
  score : ℚ
  deriving DecidableEq, Repr

/-- The struct `StudyResults` of `study_parameters.h`; every field defaults to `0.0f`. -/
structure StudyResults where
  total_pose_score : FloatVal := FloatVal.finite 0
  norm_total_pose_score : FloatVal := FloatVal.finite 0
  reach_percentage : FloatVal := FloatVal.finite 0
  avg_num_neighbors : FloatVal := FloatVal.finite 0
  avg_joint_distance : FloatVal := FloatVal.finite 0
  deriving DecidableEq, Repr

/-- Modelled from the spec: `reach_msgs::msg::ReachDatabase`, the persisted message: a
record list and the five top-level aggregate fields. -/
structure ReachDatabaseMsg where
  records : List ReachRecord := []
  total_pose_score : FloatVal := FloatVal.finite 0
  norm_total_pose_score : FloatVal := FloatVal.finite 0
  reach_percentage : FloatVal := FloatVal.finite 0
  avg_num_neighbors : FloatVal := FloatVal.finite 0
  avg_joint_distance : FloatVal := FloatVal.finite 0
  deriving DecidableEq, Repr

/-- The function `makeRecord` of `reach_database.cpp`. -/
def makeRecord (id : String) (reached : Bool) (goal : Pose) (group_name : String)
    (seed_state goal_state : JointState) (score : ℚ) : ReachRecord :=
  { id := id, goal := goal, planning_group := group_name, reached := reached,
    seed_state := seed_state, goal_state := goal_state, score := score }

/-! ## The container `std::unordered_map<std::string, ReachRecord>` -/

/-- The container type of `map_`. -/
abbrev RecordMap := List (String × ReachRecord)

/-- Lookup `map.find(id)`: the mapped record, or `none` for `map.end()`. -/
def mapFind (id : String) : RecordMap → Option ReachRecord
  | [] => none
  | (k, v) :: rest => if k = id then some v else mapFind id rest

/-- Assignment `map[id] = record`: replaces the mapped record when the key is there,
inserts a new entry otherwise. -/
def mapAssign (id : String) (record : ReachRecord) : RecordMap → RecordMap
  | [] => [(id, record)]
  | (k, v) :: rest =>
      if k = id then (k, record) :: rest else (k, v) :: mapAssign id record rest

/-- The keys held by the container, in iteration order. -/
def mapKeys (m : RecordMap) : List String := m.map Prod.fst

/-! ## `ReachDatabase` -/

/-- The free function `toReachDatabase` of `reach_database.cpp`. -/
def toReachDatabase (map : RecordMap) (results : StudyResults) : ReachDatabaseMsg :=
  { records := map.map Prod.snd
    total_pose_score := results.total_pose_score
    norm_total_pose_score := results.norm_total_pose_score
    reach_percentage := results.reach_percentage
    avg_num_neighbors := results.avg_num_neighbors
    avg_joint_distance := results.avg_joint_distance }

/-- The data members `map_` and `results_` of class `ReachDatabase`; a freshly
constructed database has an empty map and default results. -/
structure ReachDatabase where
  map_ : RecordMap := []
  results_ : StudyResults := {}
  deriving DecidableEq, Repr

namespace ReachDatabase

/-- The method `ReachDatabase::putHelper`. -/
def putHelper (db : ReachDatabase) (record : ReachRecord) : ReachDatabase :=
  { db with map_ := mapAssign record.id record db.map_ }

/-- The method `ReachDatabase::put`. -/
def put (db : ReachDatabase) (record : ReachRecord) : ReachDatabase :=
  db.putHelper record

/-- The method `ReachDatabase::get`. -/
def get (db : ReachDatabase) (id : String) : Option ReachRecord :=
  match mapFind id db.map_ with
  | some r => some r
  | none => none

/-- The method `ReachDatabase::size`. -/
def size (db : ReachDatabase) : Nat := db.map_.length

/-- The local variables `success`, `total` (both `unsigned int`) and `score` (a
`double`) of `calculateResults`. -/
structure Tally where
  success : Nat := 0
  total : Nat := 0
  score : FloatVal := FloatVal.finite 0
  deriving DecidableEq, Repr

/-- One pass of the loop body of `calculateResults` over a map element; the
`unsigned int` counters wrap at `2 ^ 32` and `score += msg.score` is a `double`
addition. -/
def tallyStep (t : Tally) (elem : String × ReachRecord) : Tally :=
  let msg := elem.2
  let t1 : Tally :=
    if msg.reached then
      { t with
        success := (t.success + 1) % 2 ^ 32
        score := FloatVal.add binary64 t.score (FloatVal.finite msg.score) }
    else t
  { t1 with total := (t1.total + 1) % 2 ^ 32 }

/-- The loop of `calculateResults` over the whole container. -/
def tally (m : RecordMap) : Tally := m.foldl tallyStep {}

/-- The method `ReachDatabase::calculateResults`.  The quotient `pct_success` and the
product `100.0f * pct_success` are `float` operations; `score` is narrowed to `float`;
`score / pct_success` is a `double` division (the `float` divisor is widened, which is
exact) whose result is narrowed to `float`. -/
def calculateResults (db : ReachDatabase) : ReachDatabase :=
  let t := tally db.map_
  let pct_success :=
    FloatVal.div binary32 (FloatVal.ofNat t.success) (FloatVal.ofNat t.total)
  { db with
    results_ :=
      { db.results_ with
        reach_percentage := FloatVal.mul binary32 (FloatVal.finite 100) pct_success
        total_pose_score := FloatVal.convert binary32 t.score
        norm_total_pose_score :=
          FloatVal.convert binary32 (FloatVal.div binary64 t.score pct_success) } }

/-- The method `ReachDatabase::toReachDatabaseMsg`. -/
def toReachDatabaseMsg (db : ReachDatabase) : ReachDatabaseMsg :=
  toReachDatabase db.map_ db.results_

/-- The method `ReachDatabase::save`.  The encoder `reach::utils::toFile` is a
parameter: it yields the file written, or `none` when it reports failure, in which
case `save` throws. -/
def save {File : Type} (toFile : ReachDatabaseMsg → Option File) (db : ReachDatabase) :
    Except String File :=
  let msg := toReachDatabase db.map_ db.results_
  match toFile msg with
  | none => Except.error "Unable to save database to file"
  | some f => Except.ok f

/-- The body of the loop of `ReachDatabase::load` for one record of the message: the
record is put and the five aggregate fields are copied. -/
def loadStep (msg : ReachDatabaseMsg) (db : ReachDatabase) (r : ReachRecord) :
    ReachDatabase :=
  let db1 := db.putHelper r
  { db1 with
    results_ :=
      { reach_percentage := msg.reach_percentage
        total_pose_score := msg.total_pose_score
        norm_total_pose_score := msg.norm_total_pose_score
        avg_num_neighbors := msg.avg_num_neighbors
        avg_joint_distance := msg.avg_joint_distance } }

/-- The part of `ReachDatabase::load` that follows a successful `fromFile`: the loop
over `msg.records`. -/
def loadMsg (db : ReachDatabase) (msg : ReachDatabaseMsg) : ReachDatabase :=
  msg.records.foldl (loadStep msg) db

/-- The method `ReachDatabase::load`.  The decoder `reach::utils::fromFile` is a
parameter: it yields the message read, or `none` when it reports failure.  The
result is the returned flag and the database afterwards. -/
def load {File : Type} (fromFile : File → Option ReachDatabaseMsg) (db : ReachDatabase)
    (file : File) : Bool × ReachDatabase :=
  match fromFile file with
  | none => (false, db)
  | some msg => (true, db.loadMsg msg)

end ReachDatabase

/-! ## `JointPenaltyMoveIt` -/

/-- Modelled from the spec: the per-joint `[min, max]` bound that
`getActiveJointModelsBounds` reports for a joint variable (`moveit::core::VariableBounds`,
declared outside the sources at hand). -/
structure VariableBounds (α : Type) where
  min_position_ : α
  max_position_ : α

namespace JointPenaltyMoveIt

/-- The method `JointPenaltyMoveIt::getJointLimits`, applied to the bounds
`limits_vec` of the group: the pair `(joint_limits[0], joint_limits[1])` of the `min`
and `max` arrays.  The read `bounds_vec[0]` of an empty vector has no defined result
(`none`). -/
def getJointLimits {α : Type} (limits_vec : List (List (VariableBounds α))) :
    Option (List α × List α) :=
  limits_vec.foldlM
    (fun (acc : List α × List α) (bounds_vec : List (VariableBounds α)) =>
      match bounds_vec[0]? with
      | none => none
      | some b => some (acc.1 ++ [b.min_position_], acc.2 ++ [b.max_position_]))
    ([], [])

/-- The body of the loop of `calculateScore` at index `i`; a read past the end of a
vector has no defined result (`none`). -/
def penaltyStep {α : Type} [Field α] (min max pose_subset : List α) (penalty : α)
    (i : Nat) : Option α :=
  match min[i]?, max[i]?, pose_subset[i]? with
  | some mn, some mx, some x =>
      let range := mx - mn
      some (penalty * (((x - mn) * (mx - x)) / range ^ 2))
  | _, _, _ => none

/-- The loop `for (i = 0; i < max.size(); ++i)` of `calculateScore`, started from
`penalty = 1.0`. -/
def penaltyLoop {α : Type} [Field α] (min max pose_subset : List α) : Option α :=
  (List.range max.length).foldlM (penaltyStep min max pose_subset) 1

/-- The method `JointPenaltyMoveIt::calculateScore` for a resolved planning group with
bounds `limits_vec`.  The library function `std::exp` is the parameter `exp`;
`transcribed` is the outcome of `utils::transcribeInputMap`: the projected `pose_subset`,
or `none` when it reports failure, in which case the score is `0`. -/
def calculateScore {α : Type} [LinearOrderedField α] (exp : α → α)
    (limits_vec : List (List (VariableBounds α))) (transcribed : Option (List α)) :
    Option α :=
  match getJointLimits limits_vec with
  | none => none
  | some (min, max) =>
    match transcribed with
    | none => some 0
    | some pose_subset =>
      match penaltyLoop min max pose_subset with
      | none => none
      | some penalty => some (Max.max 0 (1 - exp (-1 * penalty)))

end JointPenaltyMoveIt

/-! ## `DistancePenaltyMoveIt` -/

/-- The library function `std::pow` on real arguments: `none` when the result is not a
real number (a negative base with a non-integer exponent gives `NaN`, a zero base with a
negative exponent gives an infinity). -/
noncomputable def stdPow (x y : ℝ) : Option ℝ :=
  if 0 < x then some (x ^ y)
  else if x = 0 then (if 0 < y then some 0 else if y = 0 then some 1 else none)
  else if y = (⌊y⌋ : ℝ) then some (x ^ ⌊y⌋) else none

namespace DistancePenaltyMoveIt

/-- The method `DistancePenaltyMoveIt::calculateScore` with the members
`dist_threshold_` and `exponent_`.  The library function `std::pow` is the parameter
`pow`, the query `scene_->distanceToCollision` on the posed state is the parameter
`distanceToCollision`, and `transcribed` is the outcome of `utils::transcribeInputMap`
(`none` on failure, in which case the score is `0`).  The result is `none` when an
intermediate value is not a finite number (a zero threshold, or `pow` leaving the
reals). -/
def calculateScore {α : Type} [Field α] [DecidableEq α] (pow : α → α → Option α)
    (dist_threshold_ exponent_ : α) (distanceToCollision : List α → α)
    (transcribed : Option (List α)) : Option α :=
  match transcribed with
  | none => some 0
  | some pose_subset =>
    let dist := distanceToCollision pose_subset
    if dist_threshold_ = 0 then none else pow (dist / dist_threshold_) exponent_

end DistancePenaltyMoveIt

/-- A joint of the group as the scorer sees it: its bounds `lo`, `hi` and its
projected position `x`. -/
structure Joint (α : Type) where
  lo : α
  hi : α
  x : α

/-- The per-joint factor `(x - lo)(hi - x) / range²` of the penalty product. -/
def jointFactor {α : Type} [Field α] (j : Joint α) : α :=
  ((j.x - j.lo) * (j.hi - j.x)) / (j.hi - j.lo) ^ 2

/-- The bounds that the model reports for a list of joints: one bound per joint. -/
def jointBounds {α : Type} (js : List (Joint α)) : List (List (VariableBounds α)) :=
  js.map (fun j => [{ min_position_ := j.lo, max_position_ := j.hi }])

/-- The projected configuration of a list of joints. -/
def jointPositions {α : Type} (js : List (Joint α)) : List α := js.map (fun j => j.x)

/-- The joint with the given bounds placed at their midpoint. -/
def midJoint {α : Type} [Field α] (b : α × α) : Joint α :=
  { lo := b.1, hi := b.2, x := (b.1 + b.2) / 2 }

/-! ## Notions used to state the properties -/

/-- The well-formedness of a container: keys are pairwise distinct, which
`std::unordered_map` guarantees, and every record is stored under its own id, which
`putHelper`, the only writer, guarantees. -/
def WellFormed (m : RecordMap) : Prop :=
  (mapKeys m).Nodup ∧ ∀ e ∈ m, e.2.id = e.1

/-- The number of records with `reached = true`. -/
def reachedCount (m : RecordMap) : Nat := (m.filter (fun e => e.2.reached)).length

/-- The scores of the records with `reached = true`, in iteration order. -/
def reachedScores (m : RecordMap) : List ℚ :=
  (m.filter (fun e => e.2.reached)).map (fun e => e.2.score)

/-- The sum of a list of `double` numbers, accumulated from `0.0` in list order with
one `double` addition per number. -/
def doubleSum (xs : List ℚ) : FloatVal :=
  xs.foldl (fun acc x => FloatVal.add binary64 acc (FloatVal.finite x)) (FloatVal.finite 0)

/-- The last record of a list that carries the given id. -/
def lastWithId (id : String) (rs : List ReachRecord) : Option ReachRecord :=
  rs.reverse.find? (fun r => decide (r.id = id))

/-! ## Sample data -/

/-- A joint state with no joints. -/
def emptyJointState : JointState :=
  { header := { sec := 0, nanosec := 0, frame_id := "" }
    name := [], position := [], velocity := [], effort := [] }

/-- The identity pose at the origin. -/
def originPose : Pose :=
  { px := 0, py := 0, pz := 0, qx := 0, qy := 0, qz := 0, qw := 1 }

/-- A record with the given id, reached flag and score for planning group `arm`. -/
def sampleRecord (id : String) (reached : Bool) (score : ℚ) : ReachRecord :=
  makeRecord id reached originPose "arm" emptyJointState emptyJointState score

/-- The `double` written `0.8`: the number of binary64 nearest `4 / 5`. -/
def double08 : ℚ := 3602879701896397 / 4503599627370496

/-- The database of the scenario: id `0` reached with score `0.8`, id `1` unreached
with score `0`. -/
def scenarioDb : ReachDatabase :=
  (({} : ReachDatabase).put (sampleRecord "0" true double08)).put (sampleRecord "1" false 0)

/-- The id of the record with the given index: its decimal digits, least significant
first. -/
def indexId (i : Nat) : String := String.mk ((Nat.digits 10 i).map Nat.digitChar)

/-- A database of `n` unreached records with pairwise distinct ids. -/
def unreachedDb (n : Nat) : ReachDatabase :=
  { map_ := (List.range n).map (fun i => (indexId i, sampleRecord (indexId i) false 0)) }

/-- A database of `2 ^ 32` unreached records with pairwise distinct ids. -/
def wrapDb : ReachDatabase := unreachedDb (2 ^ 32)

/-- A message whose record list carries id `1` twice and id `2` once. -/
def mergeMsg : ReachDatabaseMsg :=
  { records := [sampleRecord "1" true (1 / 2), sampleRecord "2" false 0,
      sampleRecord "1" true 1]
    reach_percentage := FloatVal.finite 100 }

/-- The message that `save` builds from a freshly constructed database. -/
def freshMsg : ReachDatabaseMsg := toReachDatabase [] {}

/-- A database of three records of which only id `0` is reached. -/
def thirdDb : ReachDatabase :=
  ((({} : ReachDatabase).put (sampleRecord "0" true 1)).put (sampleRecord "1" false 0)).put
    (sampleRecord "2" false 0)

/-- A database of `n` reached records of score `1` with pairwise distinct ids. -/
def reachedDb (n : Nat) : ReachDatabase :=
  { map_ := (List.range n).map (fun i => (indexId i, sampleRecord (indexId i) true 1)) }

/-- The divisor `static_cast<float>(total)` of the first division of
`calculateResults`. -/
def totalDenominator (db : ReachDatabase) : FloatVal :=
  FloatVal.ofNat (ReachDatabase.tally db.map_).total

/-- The divisor `pct_success` of the second division of `calculateResults`: the reach
fraction, itself the quotient of the first division. -/
def fractionDenominator (db : ReachDatabase) : FloatVal :=
  FloatVal.div binary32 (FloatVal.ofNat (ReachDatabase.tally db.map_).success)
    (totalDenominator db)

/-! ## Lemmas on rounding -/

theorem floor_le_roundHalfEven (m : ℚ) : ⌊m⌋ ≤ roundHalfEven m := by
  unfold roundHalfEven
  split_ifs <;> omega

theorem roundHalfEven_le_floor_add_one (m : ℚ) : roundHalfEven m ≤ ⌊m⌋ + 1 := by
  unfold roundHalfEven
  split_ifs <;> omega

theorem roundHalfEven_intCast (n : ℤ) : roundHalfEven (n : ℚ) = n := by
  unfold roundHalfEven
  simp

theorem roundHalfEven_mono {a b : ℚ} (h : a ≤ b) : roundHalfEven a ≤ roundHalfEven b := by
  have hf : ⌊a⌋ ≤ ⌊b⌋ := Int.floor_mono h
  rcases lt_or_eq_of_le hf with hlt | heq
  · calc roundHalfEven a ≤ ⌊a⌋ + 1 := roundHalfEven_le_floor_add_one a
      _ ≤ ⌊b⌋ := hlt
      _ ≤ roundHalfEven b := floor_le_roundHalfEven b
  · unfold roundHalfEven
    rw [heq]
    have hd : a - (⌊b⌋ : ℚ) ≤ b - (⌊b⌋ : ℚ) := by linarith
    split_ifs <;> first | omega | (exfalso; linarith)

theorem roundHalfEven_of_near (m : ℚ) (n : ℤ) (h : |m - n| < 1 / 2) : roundHalfEven m = n := by
  rw [abs_lt] at h
  have h1 : ((n - 1 : ℤ) : ℚ) ≤ m := by push_cast; linarith
  have h2 : m ≤ ((n + 1 : ℤ) : ℚ) := by push_cast; linarith
  by_cases hge : (n : ℚ) ≤ m
  · have hfl : ⌊m⌋ = n := by
      rw [Int.floor_eq_iff]
      exact ⟨hge, by linarith⟩
    unfold roundHalfEven
    rw [hfl]
    have : m - (n : ℚ) < 1 / 2 := by linarith
    rw [if_pos this]
  · push_neg at hge
    have hfl : ⌊m⌋ = n - 1 := by
      rw [Int.floor_eq_iff]
      push_cast
      exact ⟨by linarith, by linarith⟩
    unfold roundHalfEven
    rw [hfl]
    have h3 : ¬ (m - ((n - 1 : ℤ) : ℚ) < 1 / 2) := by push_cast; linarith
    have h4 : 1 / 2 < m - ((n - 1 : ℤ) : ℚ) := by push_cast; linarith
    simp only [h3, h4, if_false, if_true]
    omega

theorem le_roundHalfEven {m : ℚ} {n : ℤ} (h : (n : ℚ) ≤ m) : n ≤ roundHalfEven m := by
  have := roundHalfEven_mono h
  rwa [roundHalfEven_intCast] at this

theorem roundHalfEven_le {m : ℚ} {n : ℤ} (h : m ≤ (n : ℚ)) : roundHalfEven m ≤ n := by
  have := roundHalfEven_mono h
  rwa [roundHalfEven_intCast] at this

theorem log_two_eq_of_bracket (a : ℚ) (e : ℤ) (ha : 0 < a) (hlo : (2 : ℚ) ^ e ≤ a)
    (hhi : a < (2 : ℚ) ^ (e + 1)) : Int.log 2 a = e := by
  have h2 : ((2 : ℕ) : ℚ) = 2 := by norm_num
  apply le_antisymm
  · have := (Int.lt_zpow_iff_log_lt (R := ℚ) (b := 2) (by norm_num) ha (x := e + 1)).mp
      (by rw [h2]; exact hhi)
    omega
  · exact (Int.zpow_le_iff_le_log (R := ℚ) (b := 2) (by norm_num) ha).mp (by rw [h2]; exact hlo)

theorem two_zpow_log_le (a : ℚ) (ha : 0 < a) : (2 : ℚ) ^ Int.log 2 a ≤ a := by
  have := Int.zpow_log_le_self (R := ℚ) (b := 2) (by norm_num) ha
  simpa using this

theorem lt_two_zpow_log_succ (a : ℚ) : a < (2 : ℚ) ^ (Int.log 2 a + 1) := by
  have := Int.lt_zpow_succ_log_self (R := ℚ) (b := 2) (by norm_num) a
  simpa using this

theorem FloatFormat.ulp_pos (F : FloatFormat) (a : ℚ) : 0 < F.ulp a := by
  unfold FloatFormat.ulp
  positivity

theorem FloatFormat.ulp_mul (F : FloatFormat) (a : ℚ) (k : ℕ) :
    (((2 : ℤ) ^ k : ℤ) : ℚ) * F.ulp a
      = (2 : ℚ) ^ (max (Int.log 2 a) F.emin - (F.mant : ℤ) + (k : ℤ)) := by
  unfold FloatFormat.ulp
  rw [zpow_add₀ (by norm_num : (2 : ℚ) ≠ 0), zpow_natCast]
  push_cast
  ring

theorem FloatFormat.roundAbs_le (F : FloatFormat) (a : ℚ) :
    F.roundAbs a ≤ (2 : ℚ) ^ (max (Int.log 2 a) F.emin + 1) := by
  have hu := F.ulp_pos a
  have hlt : a < (2 : ℚ) ^ (max (Int.log 2 a) F.emin + 1) :=
    lt_of_lt_of_le (lt_two_zpow_log_succ a)
      (zpow_le_zpow_right₀ (by norm_num) (by have := le_max_left (Int.log 2 a) F.emin; omega))
  have hmul := F.ulp_mul a (F.mant + 1)
  have hexp : max (Int.log 2 a) F.emin - (F.mant : ℤ) + ((F.mant + 1 : ℕ) : ℤ)
      = max (Int.log 2 a) F.emin + 1 := by push_cast; ring
  rw [hexp] at hmul
  have hq : a / F.ulp a ≤ (((2 : ℤ) ^ (F.mant + 1) : ℤ) : ℚ) := by
    rw [div_le_iff₀ hu, hmul]
    exact hlt.le
  have hr := roundHalfEven_le hq
  unfold FloatFormat.roundAbs
  rw [← hmul]
  exact mul_le_mul_of_nonneg_right (by exact_mod_cast hr) hu.le

theorem FloatFormat.le_roundAbs (F : FloatFormat) (a : ℚ) (ha : 0 < a)
    (he : F.emin ≤ Int.log 2 a) : (2 : ℚ) ^ (Int.log 2 a) ≤ F.roundAbs a := by
  have hu := F.ulp_pos a
  have hmax : max (Int.log 2 a) F.emin = Int.log 2 a := max_eq_left he
  have hmul := F.ulp_mul a F.mant
  have hexp : max (Int.log 2 a) F.emin - (F.mant : ℤ) + ((F.mant : ℕ) : ℤ)
      = Int.log 2 a := by rw [hmax]; ring
  rw [hexp] at hmul
  have hq : (((2 : ℤ) ^ F.mant : ℤ) : ℚ) ≤ a / F.ulp a := by
    rw [le_div_iff₀ hu, hmul]
    exact two_zpow_log_le a ha
  have hr := le_roundHalfEven hq
  unfold FloatFormat.roundAbs
  rw [← hmul]
  exact mul_le_mul_of_nonneg_right (by exact_mod_cast hr) hu.le

theorem FloatFormat.roundAbs_nonneg (F : FloatFormat) (a : ℚ) (ha : 0 ≤ a) :
    0 ≤ F.roundAbs a := by
  have hu := F.ulp_pos a
  have hq : ((0 : ℤ) : ℚ) ≤ a / F.ulp a := by
    simpa using div_nonneg ha hu.le
  have hr := le_roundHalfEven hq
  unfold FloatFormat.roundAbs
  exact mul_nonneg (by exact_mod_cast hr) hu.le

theorem FloatFormat.roundAbs_mono (F : FloatFormat) (a b : ℚ) (ha : 0 < a) (hab : a ≤ b) :
    F.roundAbs a ≤ F.roundAbs b := by
  have hb : 0 < b := lt_of_lt_of_le ha hab
  have hlog : Int.log 2 a ≤ Int.log 2 b := Int.log_mono_right ha hab
  have hmax : max (Int.log 2 a) F.emin ≤ max (Int.log 2 b) F.emin :=
    max_le_max hlog (le_refl _)
  rcases lt_or_eq_of_le hmax with hlt | heq
  · have hbe : F.emin ≤ Int.log 2 b := by
      by_contra hcon
      push_neg at hcon
      have h1 : max (Int.log 2 b) F.emin = F.emin := max_eq_right hcon.le
      have h2 : F.emin ≤ max (Int.log 2 a) F.emin := le_max_right _ _
      omega
    have hbmax : max (Int.log 2 b) F.emin = Int.log 2 b := max_eq_left hbe
    calc F.roundAbs a ≤ (2 : ℚ) ^ (max (Int.log 2 a) F.emin + 1) := F.roundAbs_le a
      _ ≤ (2 : ℚ) ^ (Int.log 2 b) := zpow_le_zpow_right₀ (by norm_num) (by omega)
      _ ≤ F.roundAbs b := F.le_roundAbs b hb hbe
  · have hu : F.ulp a = F.ulp b := by
      unfold FloatFormat.ulp
      rw [heq]
    unfold FloatFormat.roundAbs
    rw [hu]
    have hub := F.ulp_pos b
    have hq : a / F.ulp b ≤ b / F.ulp b := div_le_div_of_nonneg_right hab hub.le
    exact mul_le_mul_of_nonneg_right (by exact_mod_cast roundHalfEven_mono hq) hub.le

theorem FloatFormat.roundAbs_eq (F : FloatFormat) (a : ℚ) (e n : ℤ) (he : F.emin ≤ e)
    (hlo : (2 : ℚ) ^ e ≤ a) (hhi : a < (2 : ℚ) ^ (e + 1))
    (hn : |a / (2 : ℚ) ^ (e - (F.mant : ℤ)) - n| < 1 / 2) :
    F.roundAbs a = (n : ℚ) * (2 : ℚ) ^ (e - (F.mant : ℤ)) := by
  have ha : 0 < a := lt_of_lt_of_le (by positivity) hlo
  have hlog := log_two_eq_of_bracket a e ha hlo hhi
  have hu : F.ulp a = (2 : ℚ) ^ (e - (F.mant : ℤ)) := by
    unfold FloatFormat.ulp
    rw [hlog, max_eq_left he]
  unfold FloatFormat.roundAbs
  rw [hu, roundHalfEven_of_near _ n hn]

theorem FloatFormat.roundAbs_eq_self (F : FloatFormat) (a : ℚ) (e n : ℤ) (he : F.emin ≤ e)
    (hlo : (2 : ℚ) ^ e ≤ a) (hhi : a < (2 : ℚ) ^ (e + 1))
    (hn : a = (n : ℚ) * (2 : ℚ) ^ (e - (F.mant : ℤ))) : F.roundAbs a = a := by
  have hpos : (0 : ℚ) < (2 : ℚ) ^ (e - (F.mant : ℤ)) := by positivity
  have h := F.roundAbs_eq a e n he hlo hhi (by
    rw [hn, mul_div_assoc, div_self hpos.ne', mul_one, sub_self, abs_zero]
    norm_num)
  rw [h, ← hn]

theorem FloatFormat.roundAbs_two_zpow (F : FloatFormat) (k : ℤ) (hk : F.emin ≤ k) :
    F.roundAbs ((2 : ℚ) ^ k) = (2 : ℚ) ^ k := by
  apply F.roundAbs_eq_self _ k ((2 : ℤ) ^ F.mant) hk (le_refl _)
  · exact zpow_lt_zpow_right₀ (by norm_num) (by omega)
  · push_cast
    rw [← zpow_natCast, ← zpow_add₀ (by norm_num : (2 : ℚ) ≠ 0)]
    congr 1
    ring

theorem FloatFormat.round_zero (F : FloatFormat) : F.round 0 = FloatVal.finite 0 := by
  simp [FloatFormat.round]

theorem FloatFormat.round_of_pos (F : FloatFormat) (q : ℚ) (hq : 0 < q)
    (hfin : F.roundAbs q < (2 : ℚ) ^ (F.emax + 1)) :
    F.round q = FloatVal.finite (F.roundAbs q) := by
  unfold FloatFormat.round
  rw [if_neg hq.ne', abs_of_pos hq, if_neg (not_le.mpr hfin), if_neg (not_lt.mpr hq.le)]

/-- Evaluation of `round` at a positive number from its binade `e` and its rounded
significand `n`. -/
theorem FloatFormat.round_eq (F : FloatFormat) (q r : ℚ) (e n : ℤ) (he : F.emin ≤ e)
    (hlo : (2 : ℚ) ^ e ≤ q) (hhi : q < (2 : ℚ) ^ (e + 1))
    (hn : |q / (2 : ℚ) ^ (e - (F.mant : ℤ)) - n| < 1 / 2)
    (hr : r = (n : ℚ) * (2 : ℚ) ^ (e - (F.mant : ℤ)))
    (hfin : r < (2 : ℚ) ^ (F.emax + 1)) : F.round q = FloatVal.finite r := by
  have hq : 0 < q := lt_of_lt_of_le (by positivity) hlo
  have habs := F.roundAbs_eq q e n he hlo hhi hn
  rw [← hr] at habs
  rw [F.round_of_pos q hq (by rw [habs]; exact hfin), habs]

/-- A number of the format is its own rounding. -/
theorem FloatFormat.round_eq_self (F : FloatFormat) (q : ℚ) (e n : ℤ) (he : F.emin ≤ e)
    (hlo : (2 : ℚ) ^ e ≤ q) (hhi : q < (2 : ℚ) ^ (e + 1))
    (hn : q = (n : ℚ) * (2 : ℚ) ^ (e - (F.mant : ℤ)))
    (hfin : q < (2 : ℚ) ^ (F.emax + 1)) : F.round q = FloatVal.finite q := by
  have hq : 0 < q := lt_of_lt_of_le (by positivity) hlo
  have habs := F.roundAbs_eq_self q e n he hlo hhi hn
  rw [F.round_of_pos q hq (by rw [habs]; exact hfin), habs]

/-- Rounding keeps a positive number between two powers of two of the normal range. -/
theorem FloatFormat.round_of_bounds (F : FloatFormat) (q : ℚ) (lo hi : ℤ)
    (hlo : F.emin ≤ lo) (hhi : hi ≤ F.emax) (h1 : (2 : ℚ) ^ lo ≤ q) (h2 : q ≤ (2 : ℚ) ^ hi) :
    F.round q = FloatVal.finite (F.roundAbs q) ∧
    (2 : ℚ) ^ lo ≤ F.roundAbs q ∧ F.roundAbs q ≤ (2 : ℚ) ^ hi := by
  have hq : 0 < q := lt_of_lt_of_le (by positivity) h1
  have hlohi : lo ≤ hi := by
    by_contra hcon
    push_neg at hcon
    have : (2 : ℚ) ^ hi < (2 : ℚ) ^ lo := zpow_lt_zpow_right₀ (by norm_num) hcon
    linarith
  have hl : (2 : ℚ) ^ lo ≤ F.roundAbs q := by
    have := F.roundAbs_mono _ q (by positivity) h1
    rwa [F.roundAbs_two_zpow lo hlo] at this
  have hh : F.roundAbs q ≤ (2 : ℚ) ^ hi := by
    have := F.roundAbs_mono q _ hq h2
    rwa [F.roundAbs_two_zpow hi (by omega)] at this
  refine ⟨F.round_of_pos q hq ?_, hl, hh⟩
  exact lt_of_le_of_lt hh (zpow_lt_zpow_right₀ (by norm_num) (by omega))

/-! ## Lemmas on the container -/

theorem mapFind_mapAssign_self (id : String) (r : ReachRecord) (m : RecordMap) :
    mapFind id (mapAssign id r m) = some r := by
  induction m with
  | nil => simp [mapAssign, mapFind]
  | cons e rest ih =>
    obtain ⟨k, v⟩ := e
    by_cases h : k = id
    · simp [mapAssign, mapFind, h]
    · simp [mapAssign, mapFind, h, ih]

theorem mapFind_mapAssign_other (id id' : String) (r : ReachRecord) (m : RecordMap)
    (hne : id' ≠ id) : mapFind id' (mapAssign id r m) = mapFind id' m := by
  induction m with
  | nil => simp [mapAssign, mapFind, hne.symm]
  | cons e rest ih =>
    obtain ⟨k, v⟩ := e
    by_cases h : k = id
    · subst h
      simp [mapAssign, mapFind, hne.symm]
    · by_cases h' : k = id'
      · subst h'
        simp [mapAssign, mapFind, h]
      · simp [mapAssign, mapFind, h, h', ih]

theorem mapFind_isSome_iff (id : String) (m : RecordMap) :
    (mapFind id m).isSome ↔ id ∈ mapKeys m := by
  induction m with
  | nil => simp [mapFind, mapKeys]
  | cons e rest ih =>
    obtain ⟨k, v⟩ := e
    by_cases h : k = id
    · simp [mapFind, mapKeys, h]
    · have h' : ¬ id = k := fun e => h e.symm
      simpa [mapFind, mapKeys, h, h'] using ih

theorem mapFind_eq_none_iff (id : String) (m : RecordMap) :
    mapFind id m = none ↔ id ∉ mapKeys m := by
  rw [← mapFind_isSome_iff]
  cases mapFind id m <;> simp

theorem mapKeys_mapAssign_mem (id : String) (r : ReachRecord) (m : RecordMap)
    (hmem : id ∈ mapKeys m) : mapKeys (mapAssign id r m) = mapKeys m := by
  induction m with
  | nil => simp [mapKeys] at hmem
  | cons e rest ih =>
    obtain ⟨k, v⟩ := e
    by_cases h : k = id
    · simp [mapAssign, mapKeys, h]
    · have hmem' : id ∈ mapKeys rest := by
        have h' : ¬ id = k := fun e => h e.symm
        simpa [mapKeys, h'] using hmem
      have := ih hmem'
      simp only [mapKeys] at this
      simp [mapAssign, mapKeys, h, this]

theorem mapKeys_mapAssign_not_mem (id : String) (r : ReachRecord) (m : RecordMap)
    (hnot : id ∉ mapKeys m) : mapKeys (mapAssign id r m) = mapKeys m ++ [id] := by
  induction m with
  | nil => simp [mapAssign, mapKeys]
  | cons e rest ih =>
    obtain ⟨k, v⟩ := e
    have hk : ¬ k = id := by
      intro e
      apply hnot
      simp [mapKeys, e]
    have hnot' : id ∉ mapKeys rest := by
      intro hm
      apply hnot
      simp only [mapKeys] at hm
      simp [mapKeys, hm]
    have := ih hnot'
    simp only [mapKeys] at this
    simp [mapAssign, mapKeys, hk, this]

theorem mapAssign_length_mem (id : String) (r : ReachRecord) (m : RecordMap)
    (hmem : id ∈ mapKeys m) : (mapAssign id r m).length = m.length := by
  have h := congrArg List.length (mapKeys_mapAssign_mem id r m hmem)
  simpa [mapKeys] using h

theorem nodup_mapKeys_mapAssign (id : String) (r : ReachRecord) (m : RecordMap)
    (hu : (mapKeys m).Nodup) : (mapKeys (mapAssign id r m)).Nodup := by
  by_cases hmem : id ∈ mapKeys m
  · rw [mapKeys_mapAssign_mem id r m hmem]
    exact hu
  · rw [mapKeys_mapAssign_not_mem id r m hmem]
    rw [List.nodup_append]
    refine ⟨hu, List.nodup_singleton id, ?_⟩
    intro a ha hb
    simp only [List.mem_singleton] at hb
    subst hb
    exact hmem ha

theorem mem_mapAssign (id : String) (r : ReachRecord) (m : RecordMap)
    (e : String × ReachRecord) (he : e ∈ mapAssign id r m) : e = (id, r) ∨ e ∈ m := by
  induction m with
  | nil =>
    simp only [mapAssign, List.mem_singleton] at he
    exact Or.inl he
  | cons x rest ih =>
    obtain ⟨k, v⟩ := x
    by_cases h : k = id
    · subst h
      simp only [mapAssign, if_true, List.mem_cons] at he
      rcases he with he | he
      · exact Or.inl he
      · exact Or.inr (List.mem_cons_of_mem _ he)
    · simp only [mapAssign, h, if_false, List.mem_cons] at he
      rcases he with he | he
      · exact Or.inr (by simp [he])
      · rcases ih he with h1 | h1
        · exact Or.inl h1
        · exact Or.inr (List.mem_cons_of_mem _ h1)

theorem wellFormed_mapAssign (r : ReachRecord) (m : RecordMap) (hw : WellFormed m) :
    WellFormed (mapAssign r.id r m) := by
  refine ⟨nodup_mapKeys_mapAssign r.id r m hw.1, ?_⟩
  intro e he
  rcases mem_mapAssign r.id r m e he with h | h
  · subst h
    rfl
  · exact hw.2 e h

/-! ## `put` and `get` -/

/-- Claim C1: for every database state and every record `r`, `put(r)` followed by
`get(r.id)` returns a present result, and the record in it equals `r` in all seven
fields (id, goal pose, planning group, reached, seed state, goal state, score). -/
theorem put_get_same (db : ReachDatabase) (r : ReachRecord) :
    ∃ r', (db.put r).get r.id = some r' ∧ r' = r ∧
      r'.id = r.id ∧ r'.goal = r.goal ∧ r'.planning_group = r.planning_group ∧
      r'.reached = r.reached ∧ r'.seed_state = r.seed_state ∧
      r'.goal_state = r.goal_state ∧ r'.score = r.score := by
  refine ⟨r, ?_, rfl, rfl, rfl, rfl, rfl, rfl, rfl, rfl⟩
  simp [ReachDatabase.put, ReachDatabase.putHelper, ReachDatabase.get,
    mapFind_mapAssign_self]

/-- Claim C2: when the database already holds a record under id `k` and `r.id = k`,
`put(r)` overwrites: `size()` is unchanged, `get(k)` is now `r`, and the result of
`get` at every other id is what it was. -/
theorem put_overwrites (db : ReachDatabase) (r : ReachRecord) (k : String)
    (hk : r.id = k) (hheld : (db.get k).isSome = true) :
    (db.put r).size = db.size ∧ (db.put r).get k = some r ∧
    ∀ id, id ≠ k → (db.put r).get id = db.get id := by
  subst hk
  have hmem : r.id ∈ mapKeys db.map_ := by
    rw [← mapFind_isSome_iff]
    unfold ReachDatabase.get at hheld
    cases h : mapFind r.id db.map_ with
    | none => rw [h] at hheld; simp at hheld
    | some v => rfl
  refine ⟨?_, ?_, ?_⟩
  · exact mapAssign_length_mem r.id r db.map_ hmem
  · simp [ReachDatabase.put, ReachDatabase.putHelper, ReachDatabase.get,
      mapFind_mapAssign_self]
  · intro id hne
    simp [ReachDatabase.put, ReachDatabase.putHelper, ReachDatabase.get,
      mapFind_mapAssign_other _ _ _ _ hne]

/-- Witness of `put_overwrites`: id `0` of the scenario database is overwritten by an
unreached record. -/
theorem put_overwrites_witness :
    (sampleRecord "0" false 0).id = "0" ∧ (scenarioDb.get "0").isSome = true ∧
    ((scenarioDb.put (sampleRecord "0" false 0)).size = scenarioDb.size ∧
      (scenarioDb.put (sampleRecord "0" false 0)).get "0" = some (sampleRecord "0" false 0) ∧
      ∀ id, id ≠ "0" →
        (scenarioDb.put (sampleRecord "0" false 0)).get id = scenarioDb.get id) :=
  ⟨rfl, by decide, put_overwrites scenarioDb (sampleRecord "0" false 0) "0" rfl (by decide)⟩

/-! ## `calculateResults` -/

theorem foldl_tallyStep_score (m : RecordMap) (t : ReachDatabase.Tally) :
    (m.foldl ReachDatabase.tallyStep t).score
      = (reachedScores m).foldl
          (fun acc x => FloatVal.add binary64 acc (FloatVal.finite x)) t.score := by
  induction m generalizing t with
  | nil => rfl
  | cons e rest ih =>
    rw [List.foldl_cons, ih]
    by_cases h : e.2.reached = true
    · simp [ReachDatabase.tallyStep, reachedScores, h]
    · simp [ReachDatabase.tallyStep, reachedScores, h]

theorem foldl_tallyStep_success (m : RecordMap) (t : ReachDatabase.Tally) :
    (m.foldl ReachDatabase.tallyStep t).success % 2 ^ 32
      = (t.success + reachedCount m) % 2 ^ 32 := by
  induction m generalizing t with
  | nil => simp [reachedCount]
  | cons e rest ih =>
    rw [List.foldl_cons, ih]
    by_cases h : e.2.reached = true
    · simp only [ReachDatabase.tallyStep, reachedCount, h, if_true, List.filter_cons_of_pos,
        List.length_cons]
      rw [Nat.mod_add_mod]
      congr 1
      omega
    · simp [ReachDatabase.tallyStep, reachedCount, h]

theorem foldl_tallyStep_total (m : RecordMap) (t : ReachDatabase.Tally) :
    (m.foldl ReachDatabase.tallyStep t).total % 2 ^ 32 = (t.total + m.length) % 2 ^ 32 := by
  induction m generalizing t with
  | nil => simp
  | cons e rest ih =>
    rw [List.foldl_cons, ih]
    have ht : (ReachDatabase.tallyStep t e).total = (t.total + 1) % 2 ^ 32 := by
      by_cases h : e.2.reached = true <;> simp [ReachDatabase.tallyStep, h]
    rw [ht, Nat.mod_add_mod, List.length_cons]
    congr 1
    omega

theorem foldl_tallyStep_lt (m : RecordMap) (t : ReachDatabase.Tally)
    (hs : t.success < 2 ^ 32) (ht : t.total < 2 ^ 32) :
    (m.foldl ReachDatabase.tallyStep t).success < 2 ^ 32 ∧
    (m.foldl ReachDatabase.tallyStep t).total < 2 ^ 32 := by
  induction m generalizing t with
  | nil => exact ⟨hs, ht⟩
  | cons e rest ih =>
    rw [List.foldl_cons]
    apply ih
    · by_cases h : e.2.reached = true
      · simp only [ReachDatabase.tallyStep, h, if_true]
        exact Nat.mod_lt _ (by norm_num)
      · simpa [ReachDatabase.tallyStep, h] using hs
    · by_cases h : e.2.reached = true <;>
        simp only [ReachDatabase.tallyStep, h, if_true] <;>
        exact Nat.mod_lt _ (by norm_num)

/-- The counters and the sum after the loop of `calculateResults`. -/
theorem tally_eq (m : RecordMap) :
    (ReachDatabase.tally m).success = reachedCount m % 2 ^ 32 ∧
    (ReachDatabase.tally m).total = m.length % 2 ^ 32 ∧
    (ReachDatabase.tally m).score = doubleSum (reachedScores m) := by
  have hlt := foldl_tallyStep_lt m {} (by norm_num) (by norm_num)
  have h1 := foldl_tallyStep_success m {}
  have h2 := foldl_tallyStep_total m {}
  have h3 := foldl_tallyStep_score m {}
  unfold ReachDatabase.tally
  refine ⟨?_, ?_, ?_⟩
  · rw [Nat.mod_eq_of_lt hlt.1] at h1
    simpa using h1
  · rw [Nat.mod_eq_of_lt hlt.2] at h2
    simpa using h2
  · rw [h3]
    rfl

theorem reachedCount_le_length (m : RecordMap) : reachedCount m ≤ m.length :=
  List.length_filter_le _ _

theorem digitChar_injOn (a b : Nat) (ha : a < 10) (hb : b < 10)
    (h : Nat.digitChar a = Nat.digitChar b) : a = b := by
  interval_cases a <;> interval_cases b <;> first | rfl | (exact absurd h (by decide))

theorem map_digitChar_inj (l₁ l₂ : List Nat) (h₁ : ∀ d ∈ l₁, d < 10)
    (h₂ : ∀ d ∈ l₂, d < 10) (h : l₁.map Nat.digitChar = l₂.map Nat.digitChar) :
    l₁ = l₂ := by
  induction l₁ generalizing l₂ with
  | nil =>
    cases l₂ with
    | nil => rfl
    | cons b t => simp at h
  | cons a t ih =>
    cases l₂ with
    | nil => simp at h
    | cons b t₂ =>
      simp only [List.map_cons, List.cons.injEq] at h
      have hab : a = b :=
        digitChar_injOn a b (h₁ a (List.mem_cons_self _ _)) (h₂ b (List.mem_cons_self _ _)) h.1
      have ht : t = t₂ :=
        ih t₂ (fun d hd => h₁ d (List.mem_cons_of_mem _ hd))
          (fun d hd => h₂ d (List.mem_cons_of_mem _ hd)) h.2
      rw [hab, ht]

theorem indexId_injective : Function.Injective indexId := by
  intro i j h
  unfold indexId at h
  have h' := congrArg String.data h
  apply Nat.digits.injective 10
  exact map_digitChar_inj _ _ (fun d hd => Nat.digits_lt_base (by norm_num) hd)
    (fun d hd => Nat.digits_lt_base (by norm_num) hd) h'

theorem unreachedDb_wellFormed (n : Nat) : WellFormed (unreachedDb n).map_ := by
  refine ⟨?_, ?_⟩
  · have hk : mapKeys (unreachedDb n).map_ = (List.range n).map indexId := by
      unfold mapKeys unreachedDb
      rw [List.map_map]
      rfl
    rw [hk]
    exact List.Nodup.map indexId_injective (List.nodup_range _)
  · intro e he
    unfold unreachedDb at he
    rw [List.mem_map] at he
    obtain ⟨i, _, hi⟩ := he
    rw [← hi]
    rfl

theorem unreachedDb_size (n : Nat) : (unreachedDb n).size = n := by
  unfold ReachDatabase.size unreachedDb
  rw [List.length_map, List.length_range]

theorem unreachedDb_reachedCount (n : Nat) : reachedCount (unreachedDb n).map_ = 0 := by
  unfold reachedCount
  rw [List.length_eq_zero, List.filter_eq_nil_iff]
  intro e he
  unfold unreachedDb at he
  rw [List.mem_map] at he
  obtain ⟨i, _, hi⟩ := he
  rw [← hi]
  simp [sampleRecord, makeRecord]

/-! ### Rounding of the numbers met in the examples -/

theorem round32_one : binary32.round 1 = FloatVal.finite 1 :=
  binary32.round_eq_self 1 0 8388608 (by norm_num [binary32]) (by norm_num) (by norm_num)
    (by norm_num [binary32]) (by norm_num [binary32])

theorem round32_two : binary32.round 2 = FloatVal.finite 2 :=
  binary32.round_eq_self 2 1 8388608 (by norm_num [binary32]) (by norm_num) (by norm_num)
    (by norm_num [binary32]) (by norm_num [binary32])

theorem round32_three : binary32.round 3 = FloatVal.finite 3 :=
  binary32.round_eq_self 3 1 12582912 (by norm_num [binary32]) (by norm_num) (by norm_num)
    (by norm_num [binary32]) (by norm_num [binary32])

theorem round32_half : binary32.round (1 / 2) = FloatVal.finite (1 / 2) :=
  binary32.round_eq_self (1 / 2) (-1) 8388608 (by norm_num [binary32]) (by norm_num)
    (by norm_num) (by norm_num [binary32]) (by norm_num [binary32])

theorem round32_fifty : binary32.round 50 = FloatVal.finite 50 :=
  binary32.round_eq_self 50 5 13107200 (by norm_num [binary32]) (by norm_num) (by norm_num)
    (by norm_num [binary32]) (by norm_num [binary32])

theorem round32_third : binary32.round (1 / 3) = FloatVal.finite (11184811 / 33554432) :=
  binary32.round_eq (1 / 3) _ (-2) 11184811 (by norm_num [binary32]) (by norm_num)
    (by norm_num) (by norm_num [binary32, abs_lt]) (by norm_num [binary32])
    (by norm_num [binary32])

theorem round32_third_percent :
    binary32.round (100 * (11184811 / 33554432)) = FloatVal.finite (4369067 / 131072) :=
  binary32.round_eq (100 * (11184811 / 33554432)) _ 5 8738134 (by norm_num [binary32])
    (by norm_num) (by norm_num) (by norm_num [binary32, abs_lt]) (by norm_num [binary32])
    (by norm_num [binary32])

theorem round64_four_fifths : binary64.round (4 / 5) = FloatVal.finite double08 :=
  binary64.round_eq (4 / 5) _ (-1) 7205759403792794 (by norm_num [binary64]) (by norm_num)
    (by norm_num) (by norm_num [binary64, abs_lt]) (by norm_num [binary64, double08])
    (by norm_num [binary64, double08])

theorem round64_double08 : binary64.round double08 = FloatVal.finite double08 :=
  binary64.round_eq_self double08 (-1) 7205759403792794 (by norm_num [binary64])
    (by norm_num [double08]) (by norm_num [double08]) (by norm_num [binary64, double08])
    (by norm_num [binary64, double08])

theorem round32_four_fifths :
    binary32.round (3602879701896397 / 4503599627370496)
      = FloatVal.finite (13421773 / 16777216) :=
  binary32.round_eq (3602879701896397 / 4503599627370496) _ (-1) 13421773
    (by norm_num [binary32]) (by norm_num) (by norm_num) (by norm_num [binary32, abs_lt])
    (by norm_num [binary32]) (by norm_num [binary32])

theorem round64_eight_fifths :
    binary64.round (3602879701896397 / 2251799813685248)
      = FloatVal.finite (3602879701896397 / 2251799813685248) :=
  binary64.round_eq_self (3602879701896397 / 2251799813685248) 0 7205759403792794
    (by norm_num [binary64]) (by norm_num) (by norm_num) (by norm_num [binary64])
    (by norm_num [binary64])

theorem round32_eight_fifths :
    binary32.round (3602879701896397 / 2251799813685248)
      = FloatVal.finite (13421773 / 8388608) :=
  binary32.round_eq (3602879701896397 / 2251799813685248) _ 0 13421773
    (by norm_num [binary32]) (by norm_num) (by norm_num) (by norm_num [binary32, abs_lt])
    (by norm_num [binary32]) (by norm_num [binary32])

theorem scenarioDb_tally :
    ReachDatabase.tally scenarioDb.map_
      = { success := 1, total := 2, score := FloatVal.finite double08 } := by
  have h : ReachDatabase.tally scenarioDb.map_
      = { success := 1, total := 2, score := binary64.round double08 } := by
    simp [scenarioDb, sampleRecord, makeRecord, ReachDatabase.put, ReachDatabase.putHelper,
      mapAssign, ReachDatabase.tally, ReachDatabase.tallyStep, FloatVal.add]
  rw [h, round64_double08]

theorem thirdDb_tally :
    ReachDatabase.tally thirdDb.map_
      = { success := 1, total := 3, score := FloatVal.finite 1 } := by
  have h : ReachDatabase.tally thirdDb.map_
      = { success := 1, total := 3, score := binary64.round 1 } := by
    simp [thirdDb, sampleRecord, makeRecord, ReachDatabase.put, ReachDatabase.putHelper,
      mapAssign, ReachDatabase.tally, ReachDatabase.tallyStep, FloatVal.add]
  rw [h, binary64.round_eq_self 1 0 4503599627370496 (by norm_num [binary64]) (by norm_num)
    (by norm_num) (by norm_num [binary64]) (by norm_num [binary64])]

/-- The aggregates of the scenario database: `50`, the `float` nearest `0.8` and the
`float` nearest `1.6`. -/
theorem scenarioDb_results :
    scenarioDb.calculateResults.results_.reach_percentage = FloatVal.finite 50 ∧
    scenarioDb.calculateResults.results_.total_pose_score
      = FloatVal.finite (13421773 / 16777216) ∧
    scenarioDb.calculateResults.results_.norm_total_pose_score
      = FloatVal.finite (13421773 / 8388608) := by
  have hpct : FloatVal.div binary32 (FloatVal.ofNat 1) (FloatVal.ofNat 2)
      = FloatVal.finite (1 / 2) := by
    simp only [FloatVal.ofNat, Nat.cast_one, Nat.cast_ofNat, round32_one, round32_two,
      FloatVal.div]
    rw [if_neg (by norm_num)]
    exact round32_half
  refine ⟨?_, ?_, ?_⟩
  · simp only [ReachDatabase.calculateResults, scenarioDb_tally, hpct, FloatVal.mul]
    rw [show (100 : ℚ) * (1 / 2) = 50 by norm_num]
    exact round32_fifty
  · simp only [ReachDatabase.calculateResults, scenarioDb_tally, FloatVal.convert, double08]
    exact round32_four_fifths
  · simp only [ReachDatabase.calculateResults, scenarioDb_tally]
    rw [hpct]
    simp only [FloatVal.div, double08]
    rw [if_neg (by norm_num),
      show (3602879701896397 / 4503599627370496 : ℚ) / (1 / 2)
        = 3602879701896397 / 2251799813685248 by norm_num,
      round64_eight_fifths]
    exact round32_eight_fifths

/-- The values of `calculateResults` in terms of the counters and the sum of its loop. -/
theorem calculateResults_results (db : ReachDatabase) :
    db.calculateResults.results_.reach_percentage
        = FloatVal.mul binary32 (FloatVal.finite 100)
            (FloatVal.div binary32 (FloatVal.ofNat (ReachDatabase.tally db.map_).success)
              (FloatVal.ofNat (ReachDatabase.tally db.map_).total)) ∧
    db.calculateResults.results_.total_pose_score
        = FloatVal.convert binary32 (ReachDatabase.tally db.map_).score ∧
    db.calculateResults.results_.norm_total_pose_score
        = FloatVal.convert binary32
            (FloatVal.div binary64 (ReachDatabase.tally db.map_).score
              (FloatVal.div binary32 (FloatVal.ofNat (ReachDatabase.tally db.map_).success)
                (FloatVal.ofNat (ReachDatabase.tally db.map_).total))) :=
  ⟨rfl, rfl, rfl⟩

/-- Claim C3, as amended: for every database with at least one and fewer than `2 ^ 32`
records, `calculateResults` sets `reach_percentage` to `100 × reached / total`,
`total_pose_score` to the sum of the scores of the reached records only and, when at
least one record is reached, `norm_total_pose_score` to that sum divided by the reach
fraction `reached / total`, each evaluated in floating point as the code does: the
counts are converted to `float`, the quotient and the product are rounded to `float`,
the sum is accumulated in `double` in iteration order and narrowed to `float`, and the
last quotient is a `double` division narrowed to `float`.  For the scenario database (id
`0` reached with score `0.8`, the `double` nearest `4 / 5`, id `1` unreached with score
`0`) the three values are `50`, the `float` nearest `0.8` and the `float` nearest
`1.6`. -/
theorem calculateResults_formulas (db : ReachDatabase) (_hpos : 0 < db.size)
    (hlt : db.size < 2 ^ 32) :
    db.calculateResults.results_.reach_percentage
        = FloatVal.mul binary32 (FloatVal.finite 100)
            (FloatVal.div binary32 (binary32.round (reachedCount db.map_ : ℚ))
              (binary32.round (db.size : ℚ))) ∧
    db.calculateResults.results_.total_pose_score
        = FloatVal.convert binary32 (doubleSum (reachedScores db.map_)) ∧
    (0 < reachedCount db.map_ →
      db.calculateResults.results_.norm_total_pose_score
        = FloatVal.convert binary32
            (FloatVal.div binary64 (doubleSum (reachedScores db.map_))
              (FloatVal.div binary32 (binary32.round (reachedCount db.map_ : ℚ))
                (binary32.round (db.size : ℚ))))) ∧
    (scenarioDb.calculateResults.results_.reach_percentage = FloatVal.finite 50 ∧
      scenarioDb.calculateResults.results_.total_pose_score
        = FloatVal.finite (13421773 / 16777216) ∧
      scenarioDb.calculateResults.results_.norm_total_pose_score
        = FloatVal.finite (13421773 / 8388608) ∧
      binary64.round (4 / 5) = FloatVal.finite double08 ∧
      binary32.round (4 / 5) = FloatVal.finite (13421773 / 16777216) ∧
      binary32.round (8 / 5) = FloatVal.finite (13421773 / 8388608)) := by
  obtain ⟨hs, ht, hsc⟩ := tally_eq db.map_
  obtain ⟨h1, h2, h3⟩ := calculateResults_results db
  have hlen : db.map_.length < 2 ^ 32 := hlt
  have hle := reachedCount_le_length db.map_
  rw [Nat.mod_eq_of_lt (lt_of_le_of_lt hle hlen)] at hs
  rw [Nat.mod_eq_of_lt hlen] at ht
  rw [hs, ht] at h1 h3
  rw [hsc] at h2 h3
  refine ⟨h1, h2, fun _ => h3, scenarioDb_results.1, scenarioDb_results.2.1,
    scenarioDb_results.2.2, round64_four_fifths, ?_, ?_⟩
  · exact binary32.round_eq (4 / 5) _ (-1) 13421773 (by norm_num [binary32]) (by norm_num)
      (by norm_num) (by norm_num [binary32, abs_lt]) (by norm_num [binary32])
      (by norm_num [binary32])
  · exact binary32.round_eq (8 / 5) _ 0 13421773 (by norm_num [binary32]) (by norm_num)
      (by norm_num) (by norm_num [binary32, abs_lt]) (by norm_num [binary32])
      (by norm_num [binary32])

/-- Witness of `calculateResults_formulas` at the scenario database. -/
theorem calculateResults_formulas_witness :
    0 < scenarioDb.size ∧ scenarioDb.size < 2 ^ 32 ∧
    scenarioDb.calculateResults.results_.reach_percentage
        = FloatVal.mul binary32 (FloatVal.finite 100)
            (FloatVal.div binary32 (binary32.round (reachedCount scenarioDb.map_ : ℚ))
              (binary32.round (scenarioDb.size : ℚ))) :=
  ⟨by decide, by decide, (calculateResults_formulas scenarioDb (by decide) (by decide)).1⟩

/-- Claim C3, as stated, fails in four ways.  (1) The database `thirdDb` of three
records, one reached, gets `reach_percentage = 4369067 / 131072` (about `33.3333359`),
the result of two `float` roundings, not `100 × 1 / 3`.  (2) The database `wrapDb` of
`2 ^ 32` unreached records with distinct ids has at least one record, yet the counter
`total` has wrapped to `0` and `reach_percentage` is `NaN`.  (3) For a database with one
unreached record the reach fraction is `0` and `norm_total_pose_score` is `NaN`, the
quotient of no numbers.  (4) For the scenario database `total_pose_score` is the `float`
`13421773 / 16777216` (about `0.80000001`), not `4 / 5`. -/
theorem calculateResults_not_exact :
    (thirdDb.size = 3 ∧ reachedCount thirdDb.map_ = 1 ∧
      thirdDb.calculateResults.results_.reach_percentage
        = FloatVal.finite (4369067 / 131072) ∧
      thirdDb.calculateResults.results_.reach_percentage
        ≠ FloatVal.finite (100 * ((reachedCount thirdDb.map_ : ℚ) / (thirdDb.size : ℚ)))) ∧
    (WellFormed wrapDb.map_ ∧ 0 < wrapDb.size ∧
      wrapDb.calculateResults.results_.reach_percentage = FloatVal.nan) ∧
    (0 < (unreachedDb 1).size ∧ (unreachedDb 1).size < 2 ^ 32 ∧
      (unreachedDb 1).calculateResults.results_.norm_total_pose_score = FloatVal.nan) ∧
    scenarioDb.calculateResults.results_.total_pose_score ≠ FloatVal.finite (4 / 5) := by
  have key : ∀ n : Nat, n % 2 ^ 32 = 0 →
      (unreachedDb n).calculateResults.results_.reach_percentage = FloatVal.nan := by
    intro n hn
    obtain ⟨hs, ht, _⟩ := tally_eq (unreachedDb n).map_
    have hsize := unreachedDb_size n
    unfold ReachDatabase.size at hsize
    rw [unreachedDb_reachedCount n] at hs
    rw [hsize, hn] at ht
    rw [(calculateResults_results _).1, hs, ht]
    simp [FloatVal.div, FloatVal.mul, FloatVal.ofNat, FloatFormat.round_zero]
  have hthird : thirdDb.calculateResults.results_.reach_percentage
      = FloatVal.finite (4369067 / 131072) := by
    rw [(calculateResults_results _).1, thirdDb_tally]
    simp only [FloatVal.ofNat, Nat.cast_one, Nat.cast_ofNat, round32_one, round32_three,
      FloatVal.div]
    rw [if_neg (by norm_num), round32_third]
    simp only [FloatVal.mul]
    exact round32_third_percent
  refine ⟨⟨by decide, by decide, hthird, ?_⟩, ⟨unreachedDb_wellFormed _, ?_, ?_⟩,
    ⟨by decide, by decide, ?_⟩, ?_⟩
  · rw [hthird]
    intro h
    have h' := FloatVal.finite.inj h
    have h3 : thirdDb.size = 3 := by decide
    have h1 : reachedCount thirdDb.map_ = 1 := by decide
    rw [h3, h1] at h'
    norm_num at h'
  · unfold wrapDb
    rw [unreachedDb_size]
    exact Nat.pos_pow_of_pos 32 (by decide)
  · exact key (2 ^ 32) (Nat.mod_self _)
  · obtain ⟨hs, ht, hsc⟩ := tally_eq (unreachedDb 1).map_
    have hsize := unreachedDb_size 1
    unfold ReachDatabase.size at hsize
    rw [unreachedDb_reachedCount 1] at hs
    rw [hsize] at ht
    have hscore : reachedScores (unreachedDb 1).map_ = [] := by
      have h0 := unreachedDb_reachedCount 1
      unfold reachedCount at h0
      unfold reachedScores
      rw [List.length_eq_zero.mp h0]
      rfl
    rw [(calculateResults_results _).2.2, hs, ht, hsc, hscore]
    simp only [FloatVal.ofNat, Nat.zero_mod, Nat.cast_zero, FloatFormat.round_zero]
    rw [show (1 % 2 ^ 32 : ℕ) = 1 by norm_num, Nat.cast_one, round32_one]
    simp [FloatVal.div, FloatVal.convert, doubleSum, FloatFormat.round_zero]
  · rw [scenarioDb_results.2.1]
    intro h
    have h' := FloatVal.finite.inj h
    norm_num at h'

/-- Claim C4, evaluated on the code: on a freshly constructed, empty database
`calculateResults` divides `0.0f` by `0.0f`; `reach_percentage` and
`norm_total_pose_score` become `NaN` and only `total_pose_score` stays `0`. -/
theorem calculateResults_empty :
    ({} : ReachDatabase).size = 0 ∧
    ({} : ReachDatabase).calculateResults.results_.reach_percentage = FloatVal.nan ∧
    ({} : ReachDatabase).calculateResults.results_.total_pose_score = FloatVal.finite 0 ∧
    ({} : ReachDatabase).calculateResults.results_.norm_total_pose_score = FloatVal.nan := by
  refine ⟨rfl, ?_, ?_, ?_⟩ <;>
    simp [ReachDatabase.calculateResults, ReachDatabase.tally, FloatVal.div, FloatVal.mul,
      FloatVal.ofNat, FloatVal.convert, FloatFormat.round_zero]

/-! ## `load` and `save` -/

theorem get_eq_mapFind (db : ReachDatabase) (id : String) : db.get id = mapFind id db.map_ := by
  unfold ReachDatabase.get
  cases mapFind id db.map_ <;> rfl

theorem foldl_loadStep_map (msg : ReachDatabaseMsg) (rs : List ReachRecord)
    (db : ReachDatabase) :
    (rs.foldl (ReachDatabase.loadStep msg) db).map_
      = rs.foldl (fun m r => mapAssign r.id r m) db.map_ := by
  induction rs generalizing db with
  | nil => rfl
  | cons r rest ih =>
    rw [List.foldl_cons, List.foldl_cons, ih]
    rfl

theorem foldl_loadStep_results (msg : ReachDatabaseMsg) (rs : List ReachRecord)
    (db : ReachDatabase) (hne : rs ≠ []) :
    (rs.foldl (ReachDatabase.loadStep msg) db).results_
      = { reach_percentage := msg.reach_percentage
          total_pose_score := msg.total_pose_score
          norm_total_pose_score := msg.norm_total_pose_score
          avg_num_neighbors := msg.avg_num_neighbors
          avg_joint_distance := msg.avg_joint_distance } := by
  induction rs generalizing db with
  | nil => exact absurd rfl hne
  | cons r rest ih =>
    rw [List.foldl_cons]
    cases rest with
    | nil => rfl
    | cons r' rest' => exact ih _ (List.cons_ne_nil _ _)

theorem lastWithId_cons (id : String) (r : ReachRecord) (rs : List ReachRecord) :
    lastWithId id (r :: rs) = (lastWithId id rs).or (if r.id = id then some r else none) := by
  unfold lastWithId
  rw [List.reverse_cons, List.find?_append, List.find?_singleton]
  simp

theorem mapFind_mapAssign (id id' : String) (r : ReachRecord) (m : RecordMap) :
    mapFind id' (mapAssign id r m) = if id = id' then some r else mapFind id' m := by
  by_cases h : id = id'
  · subst h
    simp [mapFind_mapAssign_self]
  · have h' : id' ≠ id := fun e => h e.symm
    simp [h, mapFind_mapAssign_other id id' r m h']

/-- Lookup after the loop of `load`: the last loaded record with the id, or else what
was there. -/
theorem mapFind_foldl_mapAssign (id : String) (rs : List ReachRecord) (m : RecordMap) :
    mapFind id (rs.foldl (fun m r => mapAssign r.id r m) m)
      = (lastWithId id rs).or (mapFind id m) := by
  induction rs generalizing m with
  | nil => simp [lastWithId]
  | cons r rest ih =>
    rw [List.foldl_cons, ih, lastWithId_cons, mapFind_mapAssign]
    cases lastWithId id rest with
    | some x => simp
    | none =>
      by_cases h : r.id = id <;> simp [h]

theorem lastWithId_isSome_iff (id : String) (rs : List ReachRecord) :
    (lastWithId id rs).isSome = true ↔ id ∈ rs.map (fun r => r.id) := by
  unfold lastWithId
  rw [List.find?_isSome]
  constructor
  · rintro ⟨x, hx, hp⟩
    rw [List.mem_reverse] at hx
    rw [List.mem_map]
    exact ⟨x, hx, by simpa using hp⟩
  · intro h
    rw [List.mem_map] at h
    obtain ⟨x, hx, hp⟩ := h
    exact ⟨x, List.mem_reverse.mpr hx, by simpa using hp⟩

theorem lastWithId_id (id : String) (rs : List ReachRecord) (r : ReachRecord)
    (h : lastWithId id rs = some r) : r.id = id := by
  unfold lastWithId at h
  have := List.find?_some h
  simpa using this

theorem mem_mapKeys_foldl_mapAssign (id : String) (rs : List ReachRecord) (m : RecordMap) :
    id ∈ mapKeys (rs.foldl (fun m r => mapAssign r.id r m) m)
      ↔ id ∈ mapKeys m ∨ id ∈ rs.map (fun r => r.id) := by
  rw [← mapFind_isSome_iff, mapFind_foldl_mapAssign, ← mapFind_isSome_iff,
    ← lastWithId_isSome_iff]
  cases lastWithId id rs <;> cases mapFind id m <;> simp

theorem wellFormed_foldl_mapAssign (rs : List ReachRecord) (m : RecordMap)
    (hw : WellFormed m) : WellFormed (rs.foldl (fun m r => mapAssign r.id r m) m) := by
  induction rs generalizing m with
  | nil => exact hw
  | cons r rest ih =>
    rw [List.foldl_cons]
    exact ih _ (wellFormed_mapAssign r m hw)

theorem wellFormed_nil : WellFormed [] := by
  refine ⟨List.nodup_nil, ?_⟩
  intro e he
  cases he

/-- The loop of `load` appends the loaded ids to the key list when they are new and
pairwise distinct. -/
theorem mapKeys_foldl_mapAssign_fresh (rs : List ReachRecord) (m : RecordMap)
    (hnd : (rs.map (fun r => r.id)).Nodup)
    (hdisj : ∀ id ∈ rs.map (fun r => r.id), id ∉ mapKeys m) :
    mapKeys (rs.foldl (fun m r => mapAssign r.id r m) m)
      = mapKeys m ++ rs.map (fun r => r.id) := by
  induction rs generalizing m with
  | nil => simp
  | cons r rest ih =>
    rw [List.map_cons, List.nodup_cons] at hnd
    have hr : r.id ∉ mapKeys m := hdisj r.id (by simp)
    rw [List.foldl_cons, ih _ hnd.2, mapKeys_mapAssign_not_mem _ _ _ hr]
    · simp
    · intro id hid
      rw [mapKeys_mapAssign_not_mem _ _ _ hr, List.mem_append, List.mem_singleton]
      rintro (h | h)
      · exact hdisj id (by simp [List.mem_map] at hid ⊢; exact Or.inr hid) h
      · subst h
        exact hnd.1 hid

theorem wellFormed_ids (m : RecordMap) (hw : WellFormed m) :
    (m.map Prod.snd).map (fun r => r.id) = mapKeys m := by
  unfold mapKeys
  rw [List.map_map]
  apply List.map_congr_left
  intro e he
  exact hw.2 e he

theorem lastWithId_values (id : String) (m : RecordMap) (hw : WellFormed m) :
    lastWithId id (m.map Prod.snd) = mapFind id m := by
  induction m with
  | nil => rfl
  | cons e rest ih =>
    obtain ⟨k, v⟩ := e
    have hw' : WellFormed rest := by
      refine ⟨?_, fun e he => hw.2 e (List.mem_cons_of_mem _ he)⟩
      have := hw.1
      simp only [mapKeys, List.map_cons, List.nodup_cons] at this
      exact this.2
    have hk : v.id = k := hw.2 (k, v) (List.mem_cons_self _ _)
    have hnot : k ∉ mapKeys rest := by
      have := hw.1
      simp only [mapKeys, List.map_cons, List.nodup_cons] at this
      exact this.1
    rw [List.map_cons, lastWithId_cons, ih hw']
    by_cases h : k = id
    · subst h
      have hnone : mapFind k rest = none := (mapFind_eq_none_iff k rest).mpr hnot
      simp [mapFind, hnone, hk]
    · have h' : ¬ v.id = id := by rw [hk]; exact h
      simp only [mapFind, h, h', if_false]
      cases mapFind id rest <;> rfl

theorem wellFormed_put (db : ReachDatabase) (r : ReachRecord) (hw : WellFormed db.map_) :
    WellFormed (db.put r).map_ :=
  wellFormed_mapAssign r db.map_ hw

theorem wellFormed_loadMsg (db : ReachDatabase) (msg : ReachDatabaseMsg)
    (hw : WellFormed db.map_) : WellFormed (db.loadMsg msg).map_ := by
  unfold ReachDatabase.loadMsg
  rw [foldl_loadStep_map]
  exact wellFormed_foldl_mapAssign _ _ hw

theorem calculateResults_map (db : ReachDatabase) : db.calculateResults.map_ = db.map_ := rfl

theorem scenarioDb_wellFormed : WellFormed scenarioDb.map_ :=
  wellFormed_put _ _ (wellFormed_put _ _ wellFormed_nil)

/-- Round trip through the persisted message for any well-formed, non-empty database. -/
theorem loadMsg_toReachDatabase (db : ReachDatabase) (hw : WellFormed db.map_)
    (hpos : 0 < db.size) :
    (({} : ReachDatabase).loadMsg (toReachDatabase db.map_ db.results_)).size = db.size ∧
    (∀ id, (({} : ReachDatabase).loadMsg (toReachDatabase db.map_ db.results_)).get id
      = db.get id) ∧
    (({} : ReachDatabase).loadMsg (toReachDatabase db.map_ db.results_)).results_
      = db.results_ := by
  have hmap : (({} : ReachDatabase).loadMsg (toReachDatabase db.map_ db.results_)).map_
      = (db.map_.map Prod.snd).foldl (fun m r => mapAssign r.id r m) [] := by
    unfold ReachDatabase.loadMsg
    rw [foldl_loadStep_map]
    rfl
  have hids := wellFormed_ids db.map_ hw
  refine ⟨?_, ?_, ?_⟩
  · have hkeys := mapKeys_foldl_mapAssign_fresh (db.map_.map Prod.snd) []
      (by rw [hids]; exact hw.1) (by intro id _ h; simp [mapKeys] at h)
    rw [hids] at hkeys
    have hlen := congrArg List.length hkeys
    unfold ReachDatabase.size
    rw [hmap]
    simpa [mapKeys] using hlen
  · intro id
    rw [get_eq_mapFind, get_eq_mapFind, hmap, mapFind_foldl_mapAssign,
      lastWithId_values id db.map_ hw]
    cases mapFind id db.map_ <;> simp [mapFind]
  · have hne : (toReachDatabase db.map_ db.results_).records ≠ [] := by
      unfold ReachDatabase.size at hpos
      intro h
      have hnil : db.map_ = [] := by simpa [toReachDatabase] using h
      rw [hnil] at hpos
      exact absurd hpos (by decide)
    unfold ReachDatabase.loadMsg
    rw [foldl_loadStep_results _ _ _ hne]
    rfl

/-- Claim C5: with a lossless file encoding, for every well-formed database with at
least one record on which `calculateResults` has been run, `save` succeeds and `load`
of the saved file into a fresh database returns `true` and yields the same `size()`,
the same result of `get` at every id, and the same five aggregate fields. -/
theorem save_load_round_trip {File : Type} (toFile : ReachDatabaseMsg → Option File)
    (fromFile : File → Option ReachDatabaseMsg) (db0 : ReachDatabase)
    (hcodec : ∀ m, ∃ f, toFile m = some f ∧ fromFile f = some m)
    (hw : WellFormed db0.map_) (hpos : 0 < db0.size) :
    ∃ f, db0.calculateResults.save toFile = Except.ok f ∧
      (({} : ReachDatabase).load fromFile f).1 = true ∧
      (({} : ReachDatabase).load fromFile f).2.size = db0.calculateResults.size ∧
      (∀ id, (({} : ReachDatabase).load fromFile f).2.get id
        = db0.calculateResults.get id) ∧
      (({} : ReachDatabase).load fromFile f).2.results_.total_pose_score
        = db0.calculateResults.results_.total_pose_score ∧
      (({} : ReachDatabase).load fromFile f).2.results_.norm_total_pose_score
        = db0.calculateResults.results_.norm_total_pose_score ∧
      (({} : ReachDatabase).load fromFile f).2.results_.reach_percentage
        = db0.calculateResults.results_.reach_percentage ∧
      (({} : ReachDatabase).load fromFile f).2.results_.avg_num_neighbors
        = db0.calculateResults.results_.avg_num_neighbors ∧
      (({} : ReachDatabase).load fromFile f).2.results_.avg_joint_distance
        = db0.calculateResults.results_.avg_joint_distance := by
  obtain ⟨f, hto, hfrom⟩ :=
    hcodec (toReachDatabase db0.calculateResults.map_ db0.calculateResults.results_)
  obtain ⟨hsize, hget, hres⟩ := loadMsg_toReachDatabase db0.calculateResults hw hpos
  have hload : ({} : ReachDatabase).load fromFile f
      = (true, ({} : ReachDatabase).loadMsg
          (toReachDatabase db0.calculateResults.map_ db0.calculateResults.results_)) := by
    unfold ReachDatabase.load
    rw [hfrom]
  refine ⟨f, ?_, ?_⟩
  · unfold ReachDatabase.save
    simp only [hto]
  · rw [hload]
    exact ⟨rfl, hsize, hget, by rw [hres], by rw [hres], by rw [hres], by rw [hres],
      by rw [hres]⟩

/-- Witness of `save_load_round_trip`: the scenario database, with the message itself
as the file. -/
theorem save_load_round_trip_witness :
    (∀ m : ReachDatabaseMsg, ∃ f, some m = some f ∧ some f = some m) ∧
    WellFormed scenarioDb.map_ ∧ 0 < scenarioDb.size ∧
    ∃ f : ReachDatabaseMsg, scenarioDb.calculateResults.save some = Except.ok f ∧
      (({} : ReachDatabase).load some f).1 = true ∧
      (({} : ReachDatabase).load some f).2.size = scenarioDb.calculateResults.size :=
  ⟨fun m => ⟨m, rfl, rfl⟩, scenarioDb_wellFormed, by decide,
    (save_load_round_trip some some scenarioDb (fun m => ⟨m, rfl, rfl⟩)
      scenarioDb_wellFormed (by decide)).imp (fun _ h => ⟨h.1, h.2.1, h.2.2.1⟩)⟩

/-- Claim C6: `load` merges by id.  After a successful `load`, (a) every id that does
not occur in the loaded list maps to what it mapped to before, (b) every id that
occurs in the loaded list maps to the last record of the list carrying it, and (c) the
stored ids are exactly the prior ids together with the loaded ids. -/
theorem load_merges_by_id {File : Type} (fromFile : File → Option ReachDatabaseMsg)
    (file : File) (db : ReachDatabase) (msg : ReachDatabaseMsg)
    (hok : fromFile file = some msg) :
    (db.load fromFile file).1 = true ∧
    (∀ id, id ∉ msg.records.map (fun r => r.id) →
      (db.load fromFile file).2.get id = db.get id) ∧
    (∀ id, id ∈ msg.records.map (fun r => r.id) →
      ∃ r, lastWithId id msg.records = some r ∧ r.id = id ∧
        (db.load fromFile file).2.get id = some r) ∧
    (∀ id, id ∈ mapKeys (db.load fromFile file).2.map_
      ↔ id ∈ mapKeys db.map_ ∨ id ∈ msg.records.map (fun r => r.id)) := by
  have hload : db.load fromFile file = (true, db.loadMsg msg) := by
    unfold ReachDatabase.load
    rw [hok]
  have hmap : (db.loadMsg msg).map_
      = msg.records.foldl (fun m r => mapAssign r.id r m) db.map_ := by
    unfold ReachDatabase.loadMsg
    rw [foldl_loadStep_map]
  rw [hload]
  refine ⟨rfl, ?_, ?_, ?_⟩
  · intro id hid
    rw [← lastWithId_isSome_iff] at hid
    rw [get_eq_mapFind, get_eq_mapFind, hmap, mapFind_foldl_mapAssign]
    cases h : lastWithId id msg.records with
    | none => rfl
    | some x => rw [h] at hid; simp at hid
  · intro id hid
    rw [← lastWithId_isSome_iff] at hid
    cases h : lastWithId id msg.records with
    | none => rw [h] at hid; simp at hid
    | some x =>
      refine ⟨x, rfl, lastWithId_id id _ x h, ?_⟩
      rw [get_eq_mapFind, hmap, mapFind_foldl_mapAssign, h]
      rfl
  · intro id
    rw [hmap]
    exact mem_mapKeys_foldl_mapAssign id msg.records db.map_

/-- Witness of `load_merges_by_id`: `mergeMsg` is loaded into the scenario database;
id `0` keeps its record and id `1` gets the last of its two loaded records. -/
theorem load_merges_by_id_witness :
    (some mergeMsg = some mergeMsg) ∧
    (scenarioDb.load some mergeMsg).1 = true ∧
    (scenarioDb.load some mergeMsg).2.get "0" = scenarioDb.get "0" ∧
    (∃ r, lastWithId "1" mergeMsg.records = some r ∧ r.id = "1" ∧
      (scenarioDb.load some mergeMsg).2.get "1" = some r) :=
  ⟨rfl, (load_merges_by_id some mergeMsg scenarioDb mergeMsg rfl).1,
    (load_merges_by_id some mergeMsg scenarioDb mergeMsg rfl).2.1 "0" (by decide),
    (load_merges_by_id some mergeMsg scenarioDb mergeMsg rfl).2.2.1 "1" (by decide)⟩

/-- When the loaded record list is not empty, `load` copies the five aggregate fields
of the message. -/
theorem load_copies_aggregates_of_records {File : Type}
    (fromFile : File → Option ReachDatabaseMsg) (file : File) (db : ReachDatabase)
    (msg : ReachDatabaseMsg) (hok : fromFile file = some msg) (hne : msg.records ≠ []) :
    (db.load fromFile file).2.results_
      = { reach_percentage := msg.reach_percentage
          total_pose_score := msg.total_pose_score
          norm_total_pose_score := msg.norm_total_pose_score
          avg_num_neighbors := msg.avg_num_neighbors
          avg_joint_distance := msg.avg_joint_distance } := by
  unfold ReachDatabase.load
  rw [hok]
  exact foldl_loadStep_results msg msg.records db hne

/-- Claim C7, evaluated on the code: the copy of the aggregate fields sits inside the
loop over the records, so a message with an empty record list copies nothing.  Loading
the message saved from a fresh database into the scenario database (after
`calculateResults`) returns `true` and leaves `reach_percentage` at `50` although the
message carries `0`. -/
theorem load_empty_message_keeps_results :
    freshMsg.records = [] ∧ freshMsg.reach_percentage = FloatVal.finite 0 ∧
    (scenarioDb.calculateResults.load some freshMsg).1 = true ∧
    (scenarioDb.calculateResults.load some freshMsg).2.results_.reach_percentage
      = FloatVal.finite 50 ∧
    (scenarioDb.calculateResults.load some freshMsg).2.results_.reach_percentage
      ≠ freshMsg.reach_percentage := by
  have h50 : (scenarioDb.calculateResults.load some freshMsg).2.results_.reach_percentage
      = FloatVal.finite 50 := by
    exact scenarioDb_results.1
  refine ⟨rfl, rfl, rfl, h50, ?_⟩
  rw [h50]
  show FloatVal.finite 50 ≠ FloatVal.finite 0
  intro h
  have := FloatVal.finite.inj h
  norm_num at this

/-! ## `JointPenaltyMoveIt::calculateScore` -/

theorem foldlM_getJointLimits {α : Type} (js : List (Joint α)) (acc : List α × List α) :
    (jointBounds js).foldlM
      (fun (acc : List α × List α) (bounds_vec : List (VariableBounds α)) =>
        match bounds_vec[0]? with
        | none => none
        | some b => some (acc.1 ++ [b.min_position_], acc.2 ++ [b.max_position_]))
      acc
      = some (acc.1 ++ js.map (fun j => j.lo), acc.2 ++ js.map (fun j => j.hi)) := by
  induction js generalizing acc with
  | nil => simp [jointBounds]
  | cons j rest ih =>
    have := ih (acc.1 ++ [j.lo], acc.2 ++ [j.hi])
    simp only [jointBounds] at this
    simp [jointBounds, this]

theorem getJointLimits_jointBounds {α : Type} (js : List (Joint α)) :
    JointPenaltyMoveIt.getJointLimits (jointBounds js)
      = some (js.map (fun j => j.lo), js.map (fun j => j.hi)) := by
  unfold JointPenaltyMoveIt.getJointLimits
  rw [foldlM_getJointLimits]
  simp

theorem penaltyStep_joint {α : Type} [Field α] (js : List (Joint α)) (penalty : α)
    (i : Nat) (j : Joint α) (hj : js[i]? = some j) :
    JointPenaltyMoveIt.penaltyStep (js.map (fun j => j.lo)) (js.map (fun j => j.hi))
      (jointPositions js) penalty i = some (penalty * jointFactor j) := by
  unfold JointPenaltyMoveIt.penaltyStep jointPositions
  simp [List.getElem?_map, hj, jointFactor]

theorem foldlM_penaltyStep {α : Type} [Field α] (js : List (Joint α)) (k : Nat)
    (hk : k ≤ js.length) :
    (List.range k).foldlM
      (JointPenaltyMoveIt.penaltyStep (js.map (fun j => j.lo)) (js.map (fun j => j.hi))
        (jointPositions js)) 1
      = some (((js.take k).map jointFactor).prod) := by
  induction k with
  | zero => simp
  | succ k ih =>
    have hlt : k < js.length := hk
    have hget : js[k]? = some js[k] := List.getElem?_eq_getElem hlt
    rw [List.range_succ, List.foldlM_append, ih (Nat.le_of_lt hlt)]
    simp only [Option.bind_eq_bind, Option.some_bind, List.foldlM_cons, List.foldlM_nil]
    rw [penaltyStep_joint js _ k js[k] hget, List.take_succ, hget]
    simp only [Option.toList_some, List.map_append, List.map_cons, List.map_nil,
      List.prod_append, List.prod_singleton, Option.pure_def, Option.some_bind]

/-- The loop of `calculateScore` computes the product of the per-joint factors. -/
theorem penaltyLoop_joints {α : Type} [Field α] (js : List (Joint α)) :
    JointPenaltyMoveIt.penaltyLoop (js.map (fun j => j.lo)) (js.map (fun j => j.hi))
      (jointPositions js) = some ((js.map jointFactor).prod) := by
  unfold JointPenaltyMoveIt.penaltyLoop
  rw [List.length_map, foldlM_penaltyStep js js.length (le_refl _), List.take_length]

theorem calculateScore_joints {α : Type} [LinearOrderedField α] (exp : α → α)
    (js : List (Joint α)) :
    JointPenaltyMoveIt.calculateScore exp (jointBounds js) (some (jointPositions js))
      = some (Max.max 0 (1 - exp (-1 * (js.map jointFactor).prod))) := by
  unfold JointPenaltyMoveIt.calculateScore
  rw [getJointLimits_jointBounds]
  simp only [penaltyLoop_joints]

theorem jointFactor_midJoint (b : ℝ × ℝ) (hb : b.1 < b.2) :
    jointFactor (midJoint b) = 1 / 4 := by
  have hne : b.2 - b.1 ≠ 0 := by linarith
  unfold jointFactor midJoint
  simp only
  field_simp
  ring

theorem prod_jointFactor_midJoint (bounds : List (ℝ × ℝ)) (hb : ∀ b ∈ bounds, b.1 < b.2) :
    ((bounds.map midJoint).map jointFactor).prod = (1 / 4 : ℝ) ^ bounds.length := by
  induction bounds with
  | nil => simp
  | cons b rest ih =>
    have h1 := jointFactor_midJoint b (hb b (List.mem_cons_self _ _))
    have h2 := ih (fun c hc => hb c (List.mem_cons_of_mem _ hc))
    simp only [List.map_cons, List.prod_cons, List.length_cons, h1, h2]
    ring

/-- Claim C8: for every `n` and every list of `n` joint bounds `[lo, hi]` with
`lo < hi`, when every joint sits at the midpoint `(lo + hi) / 2` the loop of
`calculateScore` ends with `penalty = 0.25 ^ n` and the returned score is
`1 - exp (-0.25 ^ n)`, over the reals. -/
theorem midpoint_score (n : Nat) (bounds : List (ℝ × ℝ)) (hn : bounds.length = n)
    (hb : ∀ b ∈ bounds, b.1 < b.2) :
    JointPenaltyMoveIt.penaltyLoop (bounds.map Prod.fst) (bounds.map Prod.snd)
        (bounds.map (fun b => (b.1 + b.2) / 2)) = some ((0.25 : ℝ) ^ n) ∧
    JointPenaltyMoveIt.calculateScore Real.exp (jointBounds (bounds.map midJoint))
        (some (bounds.map (fun b => (b.1 + b.2) / 2)))
      = some (1 - Real.exp (-((0.25 : ℝ) ^ n))) := by
  have hq : (0.25 : ℝ) = 1 / 4 := by norm_num
  have hlo : (bounds.map midJoint).map (fun j => j.lo) = bounds.map Prod.fst := by
    rw [List.map_map]; rfl
  have hhi : (bounds.map midJoint).map (fun j => j.hi) = bounds.map Prod.snd := by
    rw [List.map_map]; rfl
  have hx : jointPositions (bounds.map midJoint) = bounds.map (fun b => (b.1 + b.2) / 2) := by
    unfold jointPositions
    rw [List.map_map]; rfl
  have hprod := prod_jointFactor_midJoint bounds hb
  rw [hn] at hprod
  constructor
  · have h := penaltyLoop_joints (bounds.map midJoint)
    rw [hlo, hhi, hx, hprod] at h
    rw [hq]
    exact h
  · have h := calculateScore_joints Real.exp (bounds.map midJoint)
    rw [hx, hprod] at h
    rw [h, hq]
    congr 1
    have hpos : (0 : ℝ) < (1 / 4) ^ n := by positivity
    have hlt : Real.exp (-1 * (1 / 4) ^ n) < 1 := by
      rw [Real.exp_lt_one_iff]
      linarith
    rw [max_eq_right (by linarith)]
    congr 2
    ring

/-- Witness of `midpoint_score`: two joints with bounds `[-1, 1]` and `[0, 4]`. -/
theorem midpoint_score_witness :
    ([((-1 : ℝ), (1 : ℝ)), (0, 4)].length = 2) ∧
    (∀ b ∈ [((-1 : ℝ), (1 : ℝ)), (0, 4)], b.1 < b.2) ∧
    JointPenaltyMoveIt.penaltyLoop ([((-1 : ℝ), (1 : ℝ)), (0, 4)].map Prod.fst)
        ([((-1 : ℝ), (1 : ℝ)), (0, 4)].map Prod.snd)
        ([((-1 : ℝ), (1 : ℝ)), (0, 4)].map (fun b => (b.1 + b.2) / 2))
      = some ((0.25 : ℝ) ^ 2) :=
  ⟨rfl, by intro b hb; simp at hb; rcases hb with h | h <;> rw [h] <;> norm_num,
    (midpoint_score 2 [((-1 : ℝ), (1 : ℝ)), (0, 4)] rfl
      (by intro b hb; simp at hb; rcases hb with h | h <;> rw [h] <;> norm_num)).1⟩

theorem jointFactor_nonpos (j : Joint ℝ) (hb : j.lo < j.hi)
    (hout : j.x ≤ j.lo ∨ j.hi ≤ j.x) : jointFactor j ≤ 0 := by
  unfold jointFactor
  apply div_nonpos_of_nonpos_of_nonneg _ (sq_nonneg _)
  rcases hout with h | h
  · exact mul_nonpos_of_nonpos_of_nonneg (by linarith) (by linarith)
  · exact mul_nonpos_of_nonneg_of_nonpos (by linarith) (by linarith)

theorem jointFactor_neg (j : Joint ℝ) (hb : j.lo < j.hi)
    (hout : j.x < j.lo ∨ j.hi < j.x) : jointFactor j < 0 := by
  unfold jointFactor
  have hden : (0 : ℝ) < (j.hi - j.lo) ^ 2 := by
    have : (0 : ℝ) < j.hi - j.lo := by linarith
    positivity
  apply div_neg_of_neg_of_pos _ hden
  rcases hout with h | h
  · exact mul_neg_of_neg_of_pos (by linarith) (by linarith)
  · exact mul_neg_of_pos_of_neg (by linarith) (by linarith)

theorem jointFactor_pos (j : Joint ℝ) (hin : j.lo < j.x ∧ j.x < j.hi) :
    0 < jointFactor j := by
  unfold jointFactor
  have hden : (0 : ℝ) < (j.hi - j.lo) ^ 2 := by
    have : (0 : ℝ) < j.hi - j.lo := by linarith
    positivity
  exact div_pos (mul_pos (by linarith) (by linarith)) hden

theorem jointFactor_on_bound (j : Joint ℝ) (hon : j.x = j.lo ∨ j.x = j.hi) :
    jointFactor j = 0 := by
  unfold jointFactor
  rcases hon with h | h <;> simp [h]

/-- The sign of the penalty product when every joint is strictly inside or strictly
outside its bounds: negative for an odd number of joints outside, positive otherwise. -/
theorem prod_jointFactor_sign (js : List (Joint ℝ)) (hb : ∀ j ∈ js, j.lo < j.hi)
    (hstrict : ∀ j ∈ js, (j.x < j.lo ∨ j.hi < j.x) ∨ (j.lo < j.x ∧ j.x < j.hi)) :
    (Odd (js.countP (fun j => decide (j.x < j.lo ∨ j.hi < j.x)))
        → (js.map jointFactor).prod < 0) ∧
    (¬ Odd (js.countP (fun j => decide (j.x < j.lo ∨ j.hi < j.x)))
        → 0 < (js.map jointFactor).prod) := by
  induction js with
  | nil => simp
  | cons j rest ih =>
    have ih' := ih (fun i hi => hb i (List.mem_cons_of_mem _ hi))
      (fun i hi => hstrict i (List.mem_cons_of_mem _ hi))
    have hbj := hb j (List.mem_cons_self _ _)
    rw [List.map_cons, List.prod_cons]
    rcases hstrict j (List.mem_cons_self _ _) with hout | hin
    · have hneg := jointFactor_neg j hbj hout
      have hc : (j :: rest).countP (fun j => decide (j.x < j.lo ∨ j.hi < j.x))
          = rest.countP (fun j => decide (j.x < j.lo ∨ j.hi < j.x)) + 1 :=
        List.countP_cons_of_pos _ _ (by simpa using hout)
      rw [hc]
      constructor
      · intro hodd
        have hnot : ¬ Odd (rest.countP (fun j => decide (j.x < j.lo ∨ j.hi < j.x))) := by
          intro h
          have := Odd.add_odd h odd_one
          rw [← Nat.not_odd_iff_even] at this
          exact this hodd
        exact mul_neg_of_neg_of_pos hneg (ih'.2 hnot)
      · intro hnodd
        have hodd : Odd (rest.countP (fun j => decide (j.x < j.lo ∨ j.hi < j.x))) := by
          by_contra h
          rw [Nat.not_odd_iff_even] at h
          exact hnodd (Even.add_odd h odd_one)
        exact mul_pos_of_neg_of_neg hneg (ih'.1 hodd)
    · have hpos := jointFactor_pos j hin
      have hnout : ¬ (j.x < j.lo ∨ j.hi < j.x) := by
        rintro (h | h) <;> linarith [hin.1, hin.2]
      have hc : (j :: rest).countP (fun j => decide (j.x < j.lo ∨ j.hi < j.x))
          = rest.countP (fun j => decide (j.x < j.lo ∨ j.hi < j.x)) :=
        List.countP_cons_of_neg _ _ (by simpa using hnout)
      rw [hc]
      exact ⟨fun h => mul_neg_of_pos_of_neg hpos (ih'.1 h), fun h => mul_pos hpos (ih'.2 h)⟩

theorem prod_jointFactor_on_bound (js : List (Joint ℝ))
    (hon : ∃ j ∈ js, j.x = j.lo ∨ j.x = j.hi) : (js.map jointFactor).prod = 0 := by
  obtain ⟨j, hj, h⟩ := hon
  apply List.prod_eq_zero
  rw [List.mem_map]
  exact ⟨j, hj, jointFactor_on_bound j h⟩

theorem score_of_nonpos_penalty (js : List (Joint ℝ))
    (hp : (js.map jointFactor).prod ≤ 0) :
    JointPenaltyMoveIt.calculateScore Real.exp (jointBounds js) (some (jointPositions js))
      = some 0 := by
  rw [calculateScore_joints]
  congr 1
  apply max_eq_left
  have h1 : 1 ≤ Real.exp (-1 * (js.map jointFactor).prod) := by
    apply Real.one_le_exp
    linarith
  linarith

/-- Claim C9: for joints with `lo < hi`, (1) a joint at or beyond a bound has a
per-joint factor `≤ 0`; (2) whenever the loop ends with `penalty ≤ 0` the returned
score `max(0, 1 - exp(-penalty))` is exactly `0`; this is the case (3) when some joint
is exactly on a bound (`penalty = 0`) and (4) when an odd number of joints are strictly
outside their bounds and the rest strictly inside (`penalty < 0`); (5) the score is `0`
for 1, 2 and 3 joints with exactly one joint outside its bounds. -/
theorem boundary_score (js : List (Joint ℝ)) (hb : ∀ j ∈ js, j.lo < j.hi) :
    (∀ j ∈ js, (j.x ≤ j.lo ∨ j.hi ≤ j.x) → jointFactor j ≤ 0) ∧
    (∀ penalty,
      JointPenaltyMoveIt.penaltyLoop (js.map (fun j => j.lo)) (js.map (fun j => j.hi))
        (jointPositions js) = some penalty →
      penalty ≤ 0 →
      JointPenaltyMoveIt.calculateScore Real.exp (jointBounds js) (some (jointPositions js))
        = some 0) ∧
    ((∃ j ∈ js, j.x = j.lo ∨ j.x = j.hi) →
      JointPenaltyMoveIt.penaltyLoop (js.map (fun j => j.lo)) (js.map (fun j => j.hi))
        (jointPositions js) = some 0) ∧
    ((∀ j ∈ js, (j.x < j.lo ∨ j.hi < j.x) ∨ (j.lo < j.x ∧ j.x < j.hi)) →
      Odd (js.countP (fun j => decide (j.x < j.lo ∨ j.hi < j.x))) →
      ∃ penalty,
        JointPenaltyMoveIt.penaltyLoop (js.map (fun j => j.lo)) (js.map (fun j => j.hi))
          (jointPositions js) = some penalty ∧ penalty < 0) ∧
    (JointPenaltyMoveIt.calculateScore Real.exp
        (jointBounds [({ lo := -1, hi := 1, x := 2 } : Joint ℝ)]) (some [2]) = some 0 ∧
      JointPenaltyMoveIt.calculateScore Real.exp
        (jointBounds [({ lo := -1, hi := 1, x := 2 } : Joint ℝ),
          { lo := -1, hi := 1, x := 0 }]) (some [2, 0]) = some 0 ∧
      JointPenaltyMoveIt.calculateScore Real.exp
        (jointBounds [({ lo := -1, hi := 1, x := 0 } : Joint ℝ),
          { lo := 0, hi := 2, x := 3 }, { lo := -1, hi := 1, x := 1 / 2 }])
        (some [0, 3, 1 / 2]) = some 0) := by
  refine ⟨?_, ?_, ?_, ?_, ?_, ?_, ?_⟩
  · intro j hj hout
    exact jointFactor_nonpos j (hb j hj) hout
  · intro penalty hloop hle
    rw [penaltyLoop_joints] at hloop
    cases hloop
    exact score_of_nonpos_penalty js hle
  · intro hon
    rw [penaltyLoop_joints, prod_jointFactor_on_bound js hon]
  · intro hstrict hodd
    exact ⟨_, penaltyLoop_joints js, (prod_jointFactor_sign js hb hstrict).1 hodd⟩
  · exact score_of_nonpos_penalty [({ lo := -1, hi := 1, x := 2 } : Joint ℝ)]
      (by norm_num [jointFactor])
  · exact score_of_nonpos_penalty
      [({ lo := -1, hi := 1, x := 2 } : Joint ℝ), { lo := -1, hi := 1, x := 0 }]
      (by norm_num [jointFactor])
  · exact score_of_nonpos_penalty
      [({ lo := -1, hi := 1, x := 0 } : Joint ℝ), { lo := 0, hi := 2, x := 3 },
        { lo := -1, hi := 1, x := 1 / 2 }]
      (by norm_num [jointFactor])

/-- Witness of `boundary_score`: two joints with bounds `[-1, 1]`, the first at `2`
(outside), the second at `0` (inside); the first factor is `≤ 0`. -/
theorem boundary_score_witness :
    (∀ j ∈ [({ lo := -1, hi := 1, x := 2 } : Joint ℝ), { lo := -1, hi := 1, x := 0 }],
      j.lo < j.hi) ∧
    (∀ j ∈ [({ lo := -1, hi := 1, x := 2 } : Joint ℝ), { lo := -1, hi := 1, x := 0 }],
      (j.x ≤ j.lo ∨ j.hi ≤ j.x) → jointFactor j ≤ 0) :=
  ⟨by intro j hj; simp at hj; rcases hj with h | h <;> rw [h] <;> norm_num,
    (boundary_score [({ lo := -1, hi := 1, x := 2 } : Joint ℝ), { lo := -1, hi := 1, x := 0 }]
      (by intro j hj; simp at hj; rcases hj with h | h <;> rw [h] <;> norm_num)).1⟩

/-! ## `DistancePenaltyMoveIt::calculateScore` -/

theorem stdPow_of_nonneg (x y : ℝ) (hx : 0 ≤ x) (hy : 0 < y) : stdPow x y = some (x ^ y) := by
  unfold stdPow
  rcases lt_or_eq_of_le hx with h | h
  · simp [h]
  · subst h
    simp [hy, Real.zero_rpow hy.ne']

/-- Claim C10, as amended: with threshold `T > 0` and exponent `e > 0` the score of a
pose with clearance `d ≥ 0` is `(d / T) ^ e`, and it is monotonically increasing in the
clearance over non-negative clearances: `0 ≤ d1 < d2` gives `score(d1) ≤ score(d2)`. -/
theorem distance_score_monotone (T e : ℝ) (scene : List ℝ → ℝ) (p1 p2 : List ℝ)
    (hT : 0 < T) (he : 0 < e) (h0 : 0 ≤ scene p1) (h12 : scene p1 < scene p2) :
    DistancePenaltyMoveIt.calculateScore stdPow T e scene (some p1)
      = some ((scene p1 / T) ^ e) ∧
    DistancePenaltyMoveIt.calculateScore stdPow T e scene (some p2)
      = some ((scene p2 / T) ^ e) ∧
    (scene p1 / T) ^ e ≤ (scene p2 / T) ^ e := by
  have hT0 : T ≠ 0 := hT.ne'
  have hq1 : 0 ≤ scene p1 / T := div_nonneg h0 hT.le
  have hq2 : 0 ≤ scene p2 / T := div_nonneg (by linarith) hT.le
  refine ⟨?_, ?_, ?_⟩
  · simp only [DistancePenaltyMoveIt.calculateScore, hT0, if_false]
    exact stdPow_of_nonneg _ _ hq1 he
  · simp only [DistancePenaltyMoveIt.calculateScore, hT0, if_false]
    exact stdPow_of_nonneg _ _ hq2 he
  · apply Real.rpow_le_rpow hq1 _ he.le
    exact div_le_div_of_nonneg_right h12.le hT.le

/-- Witness of `distance_score_monotone`: threshold `1`, exponent `2`, clearances `1`
and `2` (the clearance of a pose is its first coordinate). -/
theorem distance_score_monotone_witness :
    (0 : ℝ) < 1 ∧ (0 : ℝ) < 2 ∧ (0 : ℝ) ≤ (fun p : List ℝ => p.headD 0) [1] ∧
    (fun p : List ℝ => p.headD 0) [1] < (fun p : List ℝ => p.headD 0) [2] ∧
    ((fun p : List ℝ => p.headD 0) [1] / 1) ^ (2 : ℝ)
      ≤ ((fun p : List ℝ => p.headD 0) [2] / 1) ^ (2 : ℝ) :=
  ⟨by norm_num, by norm_num, by norm_num, by norm_num,
    (distance_score_monotone 1 2 (fun p : List ℝ => p.headD 0) [1] [2]
      (by norm_num) (by norm_num) (by norm_num) (by norm_num)).2.2⟩

/-- Claim C10, as stated, fails for negative clearances: with threshold `1` and
exponent `2` the clearances `-2 < -1` score `4` and `1`. -/
theorem distance_score_not_monotone :
    (0 : ℝ) < 1 ∧ (0 : ℝ) < 2 ∧
    (fun p : List ℝ => p.headD 0) [-2] < (fun p : List ℝ => p.headD 0) [-1] ∧
    DistancePenaltyMoveIt.calculateScore stdPow 1 2 (fun p : List ℝ => p.headD 0) (some [-2])
      = some 4 ∧
    DistancePenaltyMoveIt.calculateScore stdPow 1 2 (fun p : List ℝ => p.headD 0) (some [-1])
      = some 1 ∧
    ¬ ((4 : ℝ) ≤ 1) := by
  refine ⟨by norm_num, by norm_num, by norm_num, ?_, ?_, by norm_num⟩
  · simp only [DistancePenaltyMoveIt.calculateScore, stdPow]
    norm_num
  · simp only [DistancePenaltyMoveIt.calculateScore, stdPow]
    norm_num

/-! ## Division safety of `calculateResults` -/

/-- The two divisions of `calculateResults` in terms of their divisors. -/
theorem calculateResults_divisions (db : ReachDatabase) :
    db.calculateResults.results_.reach_percentage
        = FloatVal.mul binary32 (FloatVal.finite 100) (fractionDenominator db) ∧
    db.calculateResults.results_.norm_total_pose_score
        = FloatVal.convert binary32
            (FloatVal.div binary64 (ReachDatabase.tally db.map_).score
              (fractionDenominator db)) :=
  ⟨rfl, rfl⟩

theorem reachedCount_pos_of_mem (m : RecordMap)
    (h : ∃ e ∈ m, e.2.reached = true) : 0 < reachedCount m := by
  obtain ⟨e, he, hr⟩ := h
  unfold reachedCount
  exact List.length_pos_of_mem (List.mem_filter.mpr ⟨he, hr⟩)

theorem reachedDb_wellFormed (n : Nat) : WellFormed (reachedDb n).map_ := by
  refine ⟨?_, ?_⟩
  · have hk : mapKeys (reachedDb n).map_ = (List.range n).map indexId := by
      unfold mapKeys reachedDb
      rw [List.map_map]
      rfl
    rw [hk]
    exact List.Nodup.map indexId_injective (List.nodup_range _)
  · intro e he
    unfold reachedDb at he
    rw [List.mem_map] at he
    obtain ⟨i, _, hi⟩ := he
    rw [← hi]
    rfl

theorem reachedDb_size (n : Nat) : (reachedDb n).size = n := by
  unfold ReachDatabase.size reachedDb
  rw [List.length_map, List.length_range]

theorem reachedDb_reachedCount (n : Nat) : reachedCount (reachedDb n).map_ = n := by
  have hall : (reachedDb n).map_.filter (fun e => e.2.reached) = (reachedDb n).map_ := by
    rw [List.filter_eq_self]
    intro e he
    unfold reachedDb at he
    rw [List.mem_map] at he
    obtain ⟨i, _, hi⟩ := he
    rw [← hi]
    rfl
  unfold reachedCount
  rw [hall]
  exact reachedDb_size n

theorem reachedDb_has_reached (n : Nat) (hn : 0 < n) :
    ∃ e ∈ (reachedDb n).map_, e.2.reached = true := by
  refine ⟨(indexId 0, sampleRecord (indexId 0) true 1), ?_, rfl⟩
  unfold reachedDb
  rw [List.mem_map]
  exact ⟨0, List.mem_range.mpr hn, rfl⟩

/-- The divisors of `calculateResults` while the counters do not wrap. -/
theorem denominators_eq (db : ReachDatabase) (hlt : db.size < 2 ^ 32) :
    totalDenominator db = binary32.round (db.size : ℚ) ∧
    fractionDenominator db
      = FloatVal.div binary32 (binary32.round (reachedCount db.map_ : ℚ))
          (binary32.round (db.size : ℚ)) := by
  obtain ⟨hs, ht, _⟩ := tally_eq db.map_
  unfold ReachDatabase.size at hlt
  have hle := reachedCount_le_length db.map_
  rw [Nat.mod_eq_of_lt (lt_of_le_of_lt hle hlt)] at hs
  rw [Nat.mod_eq_of_lt hlt] at ht
  have htot : totalDenominator db = binary32.round (db.size : ℚ) := by
    unfold totalDenominator ReachDatabase.size
    rw [ht]
    rfl
  refine ⟨htot, ?_⟩
  unfold fractionDenominator
  rw [htot, hs]
  rfl

/-- The conversion to `float` of a counter between `1` and `2 ^ 32`. -/
theorem round32_counter (n : ℕ) (h1 : 1 ≤ n) (h2 : n < 2 ^ 32) :
    binary32.round (n : ℚ) = FloatVal.finite (binary32.roundAbs (n : ℚ)) ∧
    1 ≤ binary32.roundAbs (n : ℚ) ∧ binary32.roundAbs (n : ℚ) ≤ 2 ^ 32 := by
  have hq1 : (1 : ℚ) ≤ (n : ℚ) := by exact_mod_cast h1
  have hq2 : (n : ℚ) ≤ 2 ^ 32 := by exact_mod_cast h2.le
  have h := binary32.round_of_bounds (n : ℚ) 0 32 (by norm_num [binary32])
    (by norm_num [binary32]) (by simpa using hq1) (by
      rw [show ((32 : ℤ)) = ((32 : ℕ) : ℤ) by norm_num, zpow_natCast]
      exact hq2)
  refine ⟨h.1, by simpa using h.2.1, ?_⟩
  have := h.2.2
  rwa [show ((32 : ℤ)) = ((32 : ℕ) : ℤ) by norm_num, zpow_natCast] at this

theorem roundAbs32_hundred : binary32.roundAbs 100 = 100 :=
  binary32.roundAbs_eq_self 100 6 13107200 (by norm_num [binary32]) (by norm_num)
    (by norm_num) (by norm_num [binary32])

/-- Claim C11, as amended: for every database with fewer than `2 ^ 32` records,
(1) if some record has `reached = true` then both divisors of `calculateResults` are
non-zero numbers (the record count, and the reach fraction `reached / total`) and
`reach_percentage` is a number in `(0, 100]`; (2) the record count is a zero divisor
exactly for the empty database, and the reach fraction is a zero divisor exactly for a
non-empty database in which no record is reached. -/
theorem calculateResults_division_safety (db : ReachDatabase) (hlt : db.size < 2 ^ 32) :
    ((∃ e ∈ db.map_, e.2.reached = true) →
      (∃ n : ℚ, totalDenominator db = FloatVal.finite n ∧ n ≠ 0) ∧
      (∃ f : ℚ, fractionDenominator db = FloatVal.finite f ∧ f ≠ 0) ∧
      (∃ q : ℚ, db.calculateResults.results_.reach_percentage = FloatVal.finite q ∧
        0 < q ∧ q ≤ 100)) ∧
    (totalDenominator db = FloatVal.finite 0 ↔ db.size = 0) ∧
    (fractionDenominator db = FloatVal.finite 0
      ↔ 0 < db.size ∧ reachedCount db.map_ = 0) := by
  obtain ⟨htot, hfrac⟩ := denominators_eq db hlt
  have hle : reachedCount db.map_ ≤ db.size := reachedCount_le_length db.map_
  refine ⟨?_, ?_, ?_⟩
  · intro hreached
    have hc : 0 < reachedCount db.map_ := reachedCount_pos_of_mem db.map_ hreached
    have hn : 0 < db.size := lt_of_lt_of_le hc hle
    obtain ⟨hnr, hn1, hn2⟩ := round32_counter db.size hn hlt
    obtain ⟨hcr, hc1, _⟩ := round32_counter (reachedCount db.map_) hc (lt_of_le_of_lt hle hlt)
    have hcq : (0 : ℚ) < (reachedCount db.map_ : ℚ) := by exact_mod_cast hc
    have hcn : binary32.roundAbs (reachedCount db.map_ : ℚ) ≤ binary32.roundAbs (db.size : ℚ) :=
      binary32.roundAbs_mono _ _ hcq (by exact_mod_cast hle)
    have hnpos : (0 : ℚ) < binary32.roundAbs (db.size : ℚ) := by linarith
    -- the reach fraction
    have hratio_le : binary32.roundAbs (reachedCount db.map_ : ℚ)
        / binary32.roundAbs (db.size : ℚ) ≤ 1 := (div_le_one hnpos).mpr hcn
    have hratio_ge : (2 : ℚ) ^ (-32 : ℤ) ≤ binary32.roundAbs (reachedCount db.map_ : ℚ)
        / binary32.roundAbs (db.size : ℚ) := by
      rw [le_div_iff₀ hnpos]
      have h32 : (2 : ℚ) ^ (-32 : ℤ) = 1 / 2 ^ 32 := by norm_num
      rw [h32]
      calc (1 : ℚ) / 2 ^ 32 * binary32.roundAbs (db.size : ℚ)
          ≤ 1 / 2 ^ 32 * 2 ^ 32 := by
            apply mul_le_mul_of_nonneg_left hn2
            positivity
        _ = 1 := by norm_num
        _ ≤ binary32.roundAbs (reachedCount db.map_ : ℚ) := hc1
    obtain ⟨hfr, hf1, hf2⟩ := binary32.round_of_bounds _ (-32) 0 (by norm_num [binary32])
      (by norm_num [binary32]) hratio_ge (by simpa using hratio_le)
    have hf : fractionDenominator db
        = FloatVal.finite (binary32.roundAbs (binary32.roundAbs (reachedCount db.map_ : ℚ)
            / binary32.roundAbs (db.size : ℚ))) := by
      rw [hfrac, hcr, hnr]
      simp only [FloatVal.div]
      rw [if_neg hnpos.ne', hfr]
    have hfpos : (0 : ℚ) < binary32.roundAbs (binary32.roundAbs (reachedCount db.map_ : ℚ)
        / binary32.roundAbs (db.size : ℚ)) := lt_of_lt_of_le (by positivity) hf1
    have hfle : binary32.roundAbs (binary32.roundAbs (reachedCount db.map_ : ℚ)
        / binary32.roundAbs (db.size : ℚ)) ≤ 1 := by simpa using hf2
    -- the percentage
    obtain ⟨hpr, hp1, _⟩ := binary32.round_of_bounds
      (100 * binary32.roundAbs (binary32.roundAbs (reachedCount db.map_ : ℚ)
        / binary32.roundAbs (db.size : ℚ))) (-32) 7 (by norm_num [binary32])
      (by norm_num [binary32]) (by nlinarith) (by norm_num; nlinarith)
    have hple : binary32.roundAbs
        (100 * binary32.roundAbs (binary32.roundAbs (reachedCount db.map_ : ℚ)
          / binary32.roundAbs (db.size : ℚ))) ≤ 100 := by
      have := binary32.roundAbs_mono _ 100 (by positivity : (0 : ℚ) < 100 *
        binary32.roundAbs (binary32.roundAbs (reachedCount db.map_ : ℚ)
          / binary32.roundAbs (db.size : ℚ))) (by linarith)
      rwa [roundAbs32_hundred] at this
    refine ⟨⟨_, by rw [htot, hnr], hnpos.ne'⟩, ⟨_, hf, hfpos.ne'⟩, ⟨_, ?_, ?_, hple⟩⟩
    · rw [(calculateResults_divisions db).1, hf]
      simp only [FloatVal.mul]
      exact hpr
    · exact lt_of_lt_of_le (by positivity) hp1
  · rw [htot]
    constructor
    · intro h
      by_contra hne
      obtain ⟨hnr, hn1, _⟩ := round32_counter db.size (Nat.pos_of_ne_zero hne) hlt
      rw [hnr] at h
      have := FloatVal.finite.inj h
      linarith
    · intro h
      rw [h]
      simp [FloatFormat.round_zero]
  · rw [hfrac]
    by_cases hn : db.size = 0
    · have hc : reachedCount db.map_ = 0 := by omega
      rw [hn, hc]
      simp [FloatVal.div, FloatFormat.round_zero]
    · have hpos : 0 < db.size := Nat.pos_of_ne_zero hn
      obtain ⟨hnr, hn1, hn2⟩ := round32_counter db.size hpos hlt
      have hnpos : (0 : ℚ) < binary32.roundAbs (db.size : ℚ) := by linarith
      by_cases hc0 : reachedCount db.map_ = 0
      · rw [hc0, hnr]
        simp [FloatVal.div, FloatFormat.round_zero, hnpos.ne', hpos]
      · have hc : 0 < reachedCount db.map_ := Nat.pos_of_ne_zero hc0
        obtain ⟨hcr, hc1, _⟩ :=
          round32_counter (reachedCount db.map_) hc (lt_of_le_of_lt hle hlt)
        have hcq : (0 : ℚ) < (reachedCount db.map_ : ℚ) := by exact_mod_cast hc
        have hcn : binary32.roundAbs (reachedCount db.map_ : ℚ)
            ≤ binary32.roundAbs (db.size : ℚ) :=
          binary32.roundAbs_mono _ _ hcq (by exact_mod_cast hle)
        have hratio_le : binary32.roundAbs (reachedCount db.map_ : ℚ)
            / binary32.roundAbs (db.size : ℚ) ≤ 1 := (div_le_one hnpos).mpr hcn
        have hratio_ge : (2 : ℚ) ^ (-32 : ℤ) ≤ binary32.roundAbs (reachedCount db.map_ : ℚ)
            / binary32.roundAbs (db.size : ℚ) := by
          rw [le_div_iff₀ hnpos]
          have h32 : (2 : ℚ) ^ (-32 : ℤ) = 1 / 2 ^ 32 := by norm_num
          rw [h32]
          calc (1 : ℚ) / 2 ^ 32 * binary32.roundAbs (db.size : ℚ)
              ≤ 1 / 2 ^ 32 * 2 ^ 32 := by
                apply mul_le_mul_of_nonneg_left hn2
                positivity
            _ = 1 := by norm_num
            _ ≤ binary32.roundAbs (reachedCount db.map_ : ℚ) := hc1
        obtain ⟨hfr, hf1, _⟩ := binary32.round_of_bounds _ (-32) 0 (by norm_num [binary32])
          (by norm_num [binary32]) hratio_ge (by simpa using hratio_le)
        rw [hcr, hnr]
        simp only [FloatVal.div]
        rw [if_neg hnpos.ne', hfr]
        constructor
        · intro h
          have h0 := FloatVal.finite.inj h
          have : (0 : ℚ) < (2 : ℚ) ^ (-32 : ℤ) := by positivity
          linarith
        · rintro ⟨_, hc'⟩
          exact absurd hc' hc0

/-- Witness of `calculateResults_division_safety`: the scenario database, in which
record `0` is reached. -/
theorem calculateResults_division_safety_witness :
    scenarioDb.size < 2 ^ 32 ∧ (∃ e ∈ scenarioDb.map_, e.2.reached = true) ∧
    ((∃ n : ℚ, totalDenominator scenarioDb = FloatVal.finite n ∧ n ≠ 0) ∧
      (∃ f : ℚ, fractionDenominator scenarioDb = FloatVal.finite f ∧ f ≠ 0) ∧
      (∃ q : ℚ, scenarioDb.calculateResults.results_.reach_percentage = FloatVal.finite q ∧
        0 < q ∧ q ≤ 100)) :=
  ⟨by decide, ⟨("0", sampleRecord "0" true double08), List.mem_cons_self _ _, rfl⟩,
    (calculateResults_division_safety scenarioDb (by decide)).1
      ⟨("0", sampleRecord "0" true double08), List.mem_cons_self _ _, rfl⟩⟩

/-- Claim C11, as stated, fails: the database of `2 ^ 32` reached records with distinct
ids contains a reached record and is not empty, yet both counters have wrapped to `0`:
the first divisor is zero and `reach_percentage` is `NaN`. -/
theorem calculateResults_reached_counter_wraps :
    WellFormed (reachedDb (2 ^ 32)).map_ ∧
    (∃ e ∈ (reachedDb (2 ^ 32)).map_, e.2.reached = true) ∧
    (reachedDb (2 ^ 32)).size ≠ 0 ∧
    totalDenominator (reachedDb (2 ^ 32)) = FloatVal.finite 0 ∧
    (reachedDb (2 ^ 32)).calculateResults.results_.reach_percentage = FloatVal.nan := by
  have key : ∀ n : Nat, n % 2 ^ 32 = 0 →
      totalDenominator (reachedDb n) = FloatVal.finite 0 ∧
      (reachedDb n).calculateResults.results_.reach_percentage = FloatVal.nan := by
    intro n hn
    obtain ⟨hs, ht, _⟩ := tally_eq (reachedDb n).map_
    have hsize := reachedDb_size n
    unfold ReachDatabase.size at hsize
    rw [reachedDb_reachedCount n, hn] at hs
    rw [hsize, hn] at ht
    have htot : totalDenominator (reachedDb n) = FloatVal.finite 0 := by
      unfold totalDenominator
      rw [ht]
      simp [FloatVal.ofNat, FloatFormat.round_zero]
    refine ⟨htot, ?_⟩
    rw [(calculateResults_divisions (reachedDb n)).1]
    unfold fractionDenominator
    rw [htot, hs]
    simp [FloatVal.div, FloatVal.mul, FloatVal.ofNat, FloatFormat.round_zero]
  have hpos : 0 < 2 ^ 32 := Nat.pos_pow_of_pos 32 (by decide)
  refine ⟨reachedDb_wellFormed _, reachedDb_has_reached _ hpos, ?_,
    (key (2 ^ 32) (Nat.mod_self _)).1, (key (2 ^ 32) (Nat.mod_self _)).2⟩
  rw [reachedDb_size]
  exact hpos.ne'

end Reach
